import Mathlib

/-!
Shallow embedding of the jelly-puzzle solver (src/puzzle.py) in Lean 4.

The Python program is modelled faithfully, including its runtime behaviour:

* Python list indexing (negative indices wrap once from the end; anything
  further out of range raises IndexError) is modelled by `pyGet` / `pySet`
  over `Int` indices, returning `Except PyErr`.
* Python dicts keyed by movable indices are modelled as insertion-ordered
  association lists (`AttMap`); a missing key raises KeyError.
* Python sets of small non-negative ints are modelled as sorted duplicate-free
  lists (`NatSet`); CPython iterates such sets in ascending order.
* Unbounded `while` loops and recursion are given explicit fuel; running out
  of fuel is a distinct error value, and theorems about terminating runs are
  stated conditionally on an `Except.ok` result.
* `raise Exception` in `solve` is modelled by the `PyErr.raised` error.

Coordinates are pairs of mathematical integers (they can leave the grid;
only board lookups are range-checked, exactly as in the source).
-/

inductive PyErr where
  | indexErr : PyErr
  | keyErr : PyErr
  | fuel : PyErr
  | raised : PyErr
deriving DecidableEq, Repr

abbrev Exc (α : Type) : Type := Except PyErr α

/-- Python list read `l[i]`: negative indices wrap once from the end,
anything else out of range raises IndexError. -/
def pyGet {α : Type} (l : List α) (i : Int) : Exc α :=
  if h : 0 ≤ i ∧ i < (l.length : Int) then
    .ok (l.get ⟨i.toNat, by omega⟩)
  else if h2 : i < 0 ∧ 0 ≤ i + (l.length : Int) then
    .ok (l.get ⟨(i + (l.length : Int)).toNat, by omega⟩)
  else
    .error .indexErr

/-- Python list write `l[i] = a`, same index rules as `pyGet`. -/
def pySet {α : Type} (l : List α) (i : Int) (a : α) : Exc (List α) :=
  if 0 ≤ i ∧ i < (l.length : Int) then
    .ok (l.set i.toNat a)
  else if i < 0 ∧ 0 ≤ i + (l.length : Int) then
    .ok (l.set (i + (l.length : Int)).toNat a)
  else
    .error .indexErr

/-- Python `del l[i]` for a non-negative in-range index. -/
def pyDel {α : Type} (l : List α) (i : Nat) : Exc (List α) :=
  if i < l.length then .ok (l.eraseIdx i) else .error .indexErr

/-- A Python set of small non-negative ints, kept as an ascending
duplicate-free list (the order CPython iterates such sets in). -/
abbrev NatSet : Type := List Nat

def setInsert (s : NatSet) (k : Nat) : NatSet :=
  match s with
  | [] => [k]
  | a :: rest =>
    if k < a then k :: a :: rest
    else if k = a then a :: rest
    else a :: setInsert rest k

def setOfList (l : List Nat) : NatSet :=
  l.foldl setInsert []

def setUnion (a b : NatSet) : NatSet :=
  b.foldl setInsert a

/-- A Python dict from movable index to a set of movable indices,
as an insertion-ordered association list with unique keys. -/
abbrev AttMap : Type := List (Nat × NatSet)

def dictFind (d : AttMap) (k : Nat) : Option NatSet :=
  (d.find? (fun p => p.1 == k)).map (fun p => p.2)

/-- Python `d.get(k, dflt)`. -/
def dictGetD (d : AttMap) (k : Nat) (dflt : NatSet) : NatSet :=
  (dictFind d k).getD dflt

/-- Python `d[k]`: raises KeyError when the key is missing. -/
def dictGetE (d : AttMap) (k : Nat) : Exc NatSet :=
  match dictFind d k with
  | some v => .ok v
  | none => .error .keyErr

/-- Python `del d[k]` restricted to keys known to exist. -/
def dictDel (d : AttMap) (k : Nat) : AttMap :=
  d.filter (fun p => p.1 != k)

/-- Python `d[k] = v`: overwrite in place, or append preserving
insertion order. -/
def dictSet (d : AttMap) (k : Nat) (v : NatSet) : AttMap :=
  if (dictFind d k).isSome then
    d.map (fun p => if p.1 == k then (k, v) else p)
  else d ++ [(k, v)]

inductive Color where
  | red : Color
  | green : Color
  | blue : Color
  | yellow : Color
  | x : Color
deriving DecidableEq, Repr

inductive Direction where
  | up : Direction
  | right : Direction
  | down : Direction
  | left : Direction
deriving DecidableEq, Repr

def Direction.dx : Direction → Int
  | .up => 0
  | .right => 1
  | .down => 0
  | .left => -1

def Direction.dy : Direction → Int
  | .up => -1
  | .right => 0
  | .down => 1
  | .left => 0

/-- Iteration order of `for direction in Direction`, the enum
definition order in the source. -/
def directionList : List Direction := [.up, .right, .down, .left]

structure Coord where
  x : Int
  y : Int
deriving DecidableEq, Repr

/-- `Coord.__add__` with a `Direction` argument. -/
def Coord.add (c : Coord) (d : Direction) : Coord :=
  ⟨c.x + d.dx, c.y + d.dy⟩

/-- The source distinguishes the classes `Jelly` and `Block`; a tagged
kind plays the role of `movable.__class__ is Jelly`. -/
inductive MovKind where
  | jelly : MovKind
  | block : MovKind
deriving DecidableEq, Repr

structure Movable where
  coords : List Coord
  color : Color
  kind : MovKind
  is_anchored : Bool
deriving DecidableEq, Repr

/-- `Block(coords)`: color fixed to the sentinel, never anchored. -/
def mkBlock (coords : List Coord) : Movable :=
  ⟨coords, Color.x, .block, false⟩

/-- `Jelly(coords, color, anchored)`. -/
def mkJelly (coords : List Coord) (color : Color) (anchored : Bool) : Movable :=
  ⟨coords, color, .jelly, anchored⟩

structure State where
  movables : List Movable
  width : Nat
  height : Nat
  movable_idx_board : List (Option Nat)
  tile_board : List Bool
  attached_movables : AttMap
  attached_chunks : List (List Nat)
deriving DecidableEq, Repr

structure StateTransition where
  state : State
  movable_idx : Nat
  direction : Direction
deriving DecidableEq, Repr

/-- `State._coord_to_index`. -/
def coord_to_index (s : State) (c : Coord) : Int :=
  c.x + c.y * (s.width : Int)

/-- `State.lookup_tile`. -/
def lookup_tile (s : State) (c : Coord) : Exc Bool :=
  pyGet s.tile_board (coord_to_index s c)

/-- `State.lookup_movable`. -/
def lookup_movable (s : State) (c : Coord) : Exc (Option Nat) :=
  pyGet s.movable_idx_board (coord_to_index s c)

/-- Inner loop of `State._rebuild_board`: write one movable's coords. -/
def writeCoords (w : Nat) (idx : Nat) :
    List Coord → List (Option Nat) → Exc (List (Option Nat))
  | [], b => .ok b
  | c :: rest, b => do
    let b ← pySet b (c.x + (w : Int) * c.y) (some idx)
    writeCoords w idx rest b

/-- Outer loop of `State._rebuild_board` over `enumerate(self.movables)`. -/
def writeMovables (w : Nat) :
    Nat → List Movable → List (Option Nat) → Exc (List (Option Nat))
  | _, [], b => .ok b
  | idx, m :: rest, b => do
    let b ← writeCoords w idx m.coords b
    writeMovables w (idx + 1) rest b

/-- `State._rebuild_board`: recompute the movable occupancy array from
scratch. -/
def rebuild_board (s : State) : Exc State := do
  let b0 : List (Option Nat) := List.replicate (s.width * s.height) none
  let b ← writeMovables s.width 0 s.movables b0
  .ok { s with movable_idx_board := b }

/-- Total number of attachment edges stored in the map, used to bound the
breadth-first chunk exploration. -/
def attTotal (att : AttMap) : Nat :=
  att.foldl (fun a p => a + p.2.length) 0

/-- Inner breadth-first loop of `State._rebuild_attached_chunks`: explore one
chunk through the raw map (`self.attached_movables[idx]`, KeyError when the
key is missing). -/
def exploreChunk (att : AttMap) :
    Nat → List Nat → NatSet → List Nat → Exc (NatSet × List Nat)
  | 0, _, _, _ => .error .fuel
  | fuel+1, toExplore, seen, chunk =>
    match toExplore with
    | [] => .ok (seen, chunk)
    | idx :: rest =>
      if seen.contains idx then exploreChunk att fuel rest seen chunk
      else
        match dictGetE att idx with
        | .error e => .error e
        | .ok vs =>
          exploreChunk att fuel (rest ++ vs) (setInsert seen idx) (chunk ++ [idx])

/-- Outer loop of `State._rebuild_attached_chunks` over all movable
indices. -/
def chunksGo (att : AttMap) :
    Nat → Nat → NatSet → List (List Nat) → Exc (List (List Nat))
  | 0, _, _, chunks => .ok chunks
  | remaining+1, start, seen, chunks =>
    if seen.contains start then chunksGo att remaining (start + 1) seen chunks
    else do
      let (seen2, chunk) ←
        exploreChunk att (2 * attTotal att + 2) (dictGetD att start [])
          (setInsert seen start) [start]
      chunksGo att remaining (start + 1) seen2 (chunks ++ [chunk])

/-- `State._rebuild_attached_chunks`. -/
def rebuild_attached_chunks (s : State) : Exc State := do
  let chunks ← chunksGo s.attached_movables s.movables.length 0 [] []
  .ok { s with attached_chunks := chunks }

/-- Tile-placement loop of `State.__init__`. -/
def writeTiles (w : Nat) : List Coord → List Bool → Exc (List Bool)
  | [], b => .ok b
  | c :: rest, b => do
    let b2 ← pySet b (c.x + c.y * (w : Int)) true
    writeTiles w rest b2

/-- `State.__init__`: chunks are rebuilt first, then tiles are written,
then the movable board is rebuilt. -/
def mkState (movables : List Movable) (tile_locations : List Coord)
    (width height : Nat) (att : AttMap) : Exc State := do
  let s0 : State :=
    ⟨movables, width, height, [], List.replicate (width * height) false, att, []⟩
  let s1 ← rebuild_attached_chunks s0
  let tb ← writeTiles width tile_locations s1.tile_board
  rebuild_board { s1 with tile_board := tb }

/-- `State.clone`: construct a fresh state from copied movables and a deep
copy of the attachment map (which re-runs chunk computation and a board
rebuild), then share the tile board and the movable board by reference. -/
def clone (s : State) : Exc State := do
  let t ← mkState s.movables [] s.width s.height s.attached_movables
  .ok { t with tile_board := s.tile_board, movable_idx_board := s.movable_idx_board }

/-- Loop of `State.is_win_state`: `colors` collects every movable's color;
a Jelly whose color was already collected defeats the win. -/
def winGo : List Movable → List Color → Bool
  | [], _ => true
  | m :: rest, colors =>
    if m.kind == .jelly && colors.contains m.color then false
    else winGo rest (m.color :: colors)

/-- `State.is_win_state`. -/
def is_win_state (s : State) : Bool :=
  winGo s.movables []

/-- Call frames of `State._move_movable_in_direction`: the method body
(`main`), its loop over the moving movable's coordinates (`push`), and its
loop over the attached movables (`attach`). A single fuel-indexed function
keeps the recursion structural. -/
inductive MmFrame where
  | main : Nat → MmFrame
  | push : Nat → List Coord → MmFrame
  | attach : Nat → List Nat → MmFrame
deriving Repr

/-- `State._move_movable_in_direction` with its two inner loops. The
`movables_moved` set is threaded exactly as the Python mutates it: the caller
adds the pushed or attached index to its own set before recursing, and the
recursive call receives a copy, so additions made inside the call are
discarded (the second component of a returned pair is ignored by the
caller). -/
def mmRun : Nat → MmFrame → State → Direction → NatSet → Exc (Option (State × NatSet))
  | 0, _, _, _, _ => .error .fuel
  | fuel+1, .main movable_idx, s, direction, moved => do
    let mv ← pyGet s.movables (movable_idx : Int)
    if mv.is_anchored then .ok none
    else do
      let st ← clone s
      let r ← mmRun fuel (.push movable_idx mv.coords) st direction moved
      match r with
      | none => .ok none
      | some (st, moved) => do
        let r2 ← mmRun fuel
          (.attach movable_idx (dictGetD st.attached_movables movable_idx []))
          st direction moved
        match r2 with
        | none => .ok none
        | some (st, moved2) => do
          let cur ← pyGet st.movables (movable_idx : Int)
          let ms ← pySet st.movables (movable_idx : Int)
            { cur with coords := cur.coords.map (fun c => c.add direction) }
          let st ← rebuild_board { st with movables := ms }
          .ok (some (st, moved2))
  | _fuel+1, .push _ [], st, _, moved => .ok (some (st, moved))
  | fuel+1, .push movable_idx (c :: rest), st, direction, moved => do
    let nc := c.add direction
    let t ← lookup_tile st nc
    if t then .ok none
    else do
      let pushed ← lookup_movable st nc
      match pushed with
      | some p =>
        if moved.contains p then mmRun fuel (.push movable_idx rest) st direction moved
        else do
          let moved := setInsert moved p
          let r ← mmRun fuel (.main p) st direction moved
          match r with
          | none => .ok none
          | some (st2, _inner) => mmRun fuel (.push movable_idx rest) st2 direction moved
      | none => mmRun fuel (.push movable_idx rest) st direction moved
  | _fuel+1, .attach _ [], st, _, moved => .ok (some (st, moved))
  | fuel+1, .attach movable_idx (a :: rest), st, direction, moved =>
    if moved.contains a then mmRun fuel (.attach movable_idx rest) st direction moved
    else do
      let moved := setInsert moved a
      let r ← mmRun fuel (.main a) st direction moved
      match r with
      | none => .ok none
      | some (st2, _inner) => mmRun fuel (.attach movable_idx rest) st2 direction moved

/-- `State._move_movable_in_direction` as called with an explicit set. -/
def move_movable_in_direction (fuel : Nat) (s : State) (movable_idx : Nat)
    (direction : Direction) (movables_moved : NatSet) : Exc (Option State) := do
  let r ← mmRun fuel (.main movable_idx) s direction movables_moved
  .ok (r.map (fun p => p.1))

/-- Coordinate loop of the per-chunk support check in `State._gravity`:
the movable lookup below is evaluated first, then the tile lookup, then the
blocking condition. -/
def coordsClear (s : State) (movable_idx : Nat) : List Coord → Exc Bool
  | [] => .ok true
  | c :: rest => do
    let nc := c.add .down
    let on_movable ← lookup_movable s nc
    let t ← lookup_tile s nc
    let blocked : Bool :=
      t || (match on_movable with
            | some j =>
              (j != movable_idx) &&
                !(dictGetD s.attached_movables movable_idx []).contains j
            | none => false)
    if blocked then .ok false else coordsClear s movable_idx rest

/-- Per-chunk check of `State._gravity`: anchored members or blocked
coordinates stop the fall, with the same early exits as the source. -/
def chunkCanFall (s : State) : List Nat → Exc Bool
  | [] => .ok true
  | i :: rest => do
    let mv ← pyGet s.movables (i : Int)
    if mv.is_anchored then .ok false
    else do
      let b ← coordsClear s i mv.coords
      if b then chunkCanFall s rest else .ok false

/-- Falling branch of `State._gravity`: translate every chunk member one row
down, rebuilding the board after each movable as the source does. -/
def fallChunk : List Nat → State → Exc State
  | [], s => .ok s
  | i :: rest, s => do
    let mv ← pyGet s.movables (i : Int)
    let ms ← pySet s.movables (i : Int)
      { mv with coords := mv.coords.map (fun c => c.add .down) }
    let s2 ← rebuild_board { s with movables := ms }
    fallChunk rest s2

/-- One full sweep of `State._gravity` over the chunk list, returning the
final state and whether any chunk moved. -/
def sweepGo : List (List Nat) → State → Bool → Exc (State × Bool)
  | [], s, moved => .ok (s, moved)
  | chunk :: rest, s, moved => do
    let b ← chunkCanFall s chunk
    if b then do
      let s2 ← fallChunk chunk s
      sweepGo rest s2 true
    else sweepGo rest s moved

/-- `State._gravity`: repeat full sweeps until a sweep moves nothing. -/
def gravityFn : Nat → State → Exc State
  | 0, _ => .error .fuel
  | fuel+1, s => do
    let (s2, moved) ← sweepGo s.attached_chunks s false
    if moved then gravityFn fuel s2 else .ok s2

/-- Fusion trigger condition at one coordinate and direction, exactly as the
source evaluates it: look up the neighbour cell, then require a neighbour
index different from the loop counter `movable_idx`, the scanned movable to
be a Jelly, and equal colors (the neighbour's class is not checked). The
scanned movable is the object Python holds by reference; `pos` is its current
position in the list, while `mIdx` is the stale loop counter the source
compares and reindexes with. -/
def fuseCond (s : State) (pos mIdx coordIdx : Nat) (d : Direction) :
    Exc (Option Nat) := do
  let mv ← pyGet s.movables (pos : Int)
  let c ← pyGet mv.coords (coordIdx : Int)
  let n? ← lookup_movable s (c.add d)
  match n? with
  | none => .ok none
  | some n =>
    if n = mIdx then .ok none
    else if mv.kind ≠ .jelly then .ok none
    else do
      let nmv ← pyGet s.movables (n : Int)
      .ok (if nmv.color = mv.color then some n else none)

/-- The mutation performed on a successful fusion trigger: extend the scanned
movable's coordinate list with the neighbour's, OR the anchored flags, and
delete the neighbour from the movable list. Returns the new position of the
scanned movable (shifted down when the deleted index was below it). -/
def mergeStep (s : State) (pos n : Nat) : Exc (State × Nat) := do
  let mv ← pyGet s.movables (pos : Int)
  let nmv ← pyGet s.movables (n : Int)
  let merged : Movable :=
    { mv with coords := mv.coords ++ nmv.coords,
              is_anchored := mv.is_anchored || nmv.is_anchored }
  let ms ← pySet s.movables (pos : Int) merged
  let ms2 ← pyDel ms n
  .ok ({ s with movables := ms2 }, if n < pos then pos - 1 else pos)

/-- Index shift applied after removing index `fused_from`. -/
def shiftAfterRemove (fused_from a : Nat) : Nat :=
  if a > fused_from then a - 1 else a

/-- The pure map transformation of `State._adjust_attached_after_fusing`:
union the two fused movables' sets under the (unshifted) surviving key,
shifting members above the removed index; then re-enter every remaining item
with its key shifted and each member redirected from the removed index to
the (unshifted) surviving index or shifted when above the removed index. -/
def adjustMap (att : AttMap) (fused_to fused_from : Nat) : AttMap :=
  let m1 := dictGetD att fused_to []
  let att1 := if (dictFind att fused_to).isSome then dictDel att fused_to else att
  let m2 := dictGetD att1 fused_from []
  let att2 := if (dictFind att1 fused_from).isSome then dictDel att1 fused_from else att1
  let merged := setUnion m1 m2
  let d0 : AttMap :=
    if merged.isEmpty then []
    else dictSet [] fused_to (setOfList (merged.map (shiftAfterRemove fused_from)))
  att2.foldl
    (fun d p =>
      dictSet d (shiftAfterRemove fused_from p.1)
        (setOfList (p.2.map (fun a =>
          if a = fused_from then fused_to else shiftAfterRemove fused_from a)))) d0

/-- `State._adjust_attached_after_fusing`: install the adjusted map and
recompute chunks. -/
def adjust_attached_after_fusing (s : State) (fused_to fused_from : Nat) :
    Exc State :=
  rebuild_attached_chunks
    { s with attached_movables := adjustMap s.attached_movables fused_to fused_from }

/-- Direction loop of `State._fuse_movables` at one coordinate; each
successful trigger is followed by `_rebuild_board` and the attachment
adjustment (called with the stale loop counter `mIdx`). -/
def fuseDirs : Nat → State → Nat → Nat → Nat → List Direction → Exc (State × Nat)
  | 0, _, _, _, _, _ => .error .fuel
  | _fuel+1, s, pos, _mIdx, _ci, [] => .ok (s, pos)
  | fuel+1, s, pos, mIdx, ci, d :: rest => do
    let r ← fuseCond s pos mIdx ci d
    match r with
    | none => fuseDirs fuel s pos mIdx ci rest
    | some n => do
      let (s2, pos2) ← mergeStep s pos n
      let s3 ← rebuild_board s2
      let s4 ← adjust_attached_after_fusing s3 mIdx n
      fuseDirs fuel s4 pos2 mIdx ci rest

/-- Coordinate loop of `State._fuse_movables`: the scanned list may grow
while it is being walked, so the bound is re-read each iteration. -/
def fuseCoords : Nat → State → Nat → Nat → Nat → Exc (State × Nat)
  | 0, _, _, _, _ => .error .fuel
  | fuel+1, s, pos, mIdx, ci => do
    let mv ← pyGet s.movables (pos : Int)
    if ci < mv.coords.length then do
      let (s2, pos2) ← fuseDirs fuel s pos mIdx ci directionList
      fuseCoords fuel s2 pos2 mIdx (ci + 1)
    else .ok (s, pos)

/-- Outer loop of `State._fuse_movables` over the (shrinking) movable
list. -/
def fuseOuter : Nat → State → Nat → Exc State
  | 0, _, _ => .error .fuel
  | fuel+1, s, mIdx =>
    if mIdx < s.movables.length then do
      let (s2, _pos) ← fuseCoords fuel s mIdx mIdx 0
      fuseOuter fuel s2 (mIdx + 1)
    else .ok s

/-- `State._fuse_movables`. -/
def fuse_movables (fuel : Nat) (s : State) : Exc State :=
  fuseOuter fuel s 0

/-- `State.move`: lateral check, push propagation, then gravity, fusion and
a final board rebuild; `None` results propagate as `none`. -/
def State.move (fuel : Nat) (s : State) (movable_idx : Nat)
    (direction : Direction) : Exc (Option State) :=
  if direction = .left ∨ direction = .right then do
    let r ← mmRun fuel (.main movable_idx) s direction [movable_idx]
    match r with
    | none => .ok none
    | some (st, _) => do
      let st2 ← gravityFn fuel st
      let st3 ← fuse_movables fuel st2
      let st4 ← rebuild_board st3
      .ok (some st4)
  else .ok none

/-- Loop of `State.get_all_state_transitions` over movable indices fixed at
entry; for each index try left then right. -/
def transGo (fuel : Nat) (s : State) : Nat → Nat → Exc (List StateTransition)
  | 0, _ => .ok []
  | remaining+1, idx => do
    let l? ← State.move fuel s idx .left
    let acc1 : List StateTransition :=
      match l? with
      | some t => [⟨t, idx, .left⟩]
      | none => []
    let r? ← State.move fuel s idx .right
    let acc2 : List StateTransition :=
      match r? with
      | some t => acc1 ++ [⟨t, idx, .right⟩]
      | none => acc1
    let rest ← transGo fuel s remaining (idx + 1)
    .ok (acc2 ++ rest)

/-- `State.get_all_state_transitions`. -/
def get_all_state_transitions (fuel : Nat) (s : State) : Exc (List StateTransition) :=
  transGo fuel s s.movables.length 0

/-- `State.__hash__` walked over the board: each occupied cell contributes
the pair of its movable index and that movable's color. -/
def hashKeyGo (ms : List Movable) : List (Option Nat) → Exc (List (Option (Nat × Color)))
  | [] => .ok []
  | none :: rest => do
    let t ← hashKeyGo ms rest
    .ok (none :: t)
  | some i :: rest => do
    let mv ← pyGet ms (i : Int)
    let t ← hashKeyGo ms rest
    .ok (some (i, mv.color) :: t)

/-- The hashed identity of a state. -/
def hashKey (s : State) : Exc (List (Option (Nat × Color))) :=
  hashKeyGo s.movables s.movable_idx_board

/-- Membership scan of the seen-state set: a Python set hit needs the stored
hash to match (`__hash__`: index and color per cell) and the stored element
to compare equal (`__eq__`: the index board alone). -/
def seenAny (s : State) (k : List (Option (Nat × Color))) : List State → Exc Bool
  | [] => .ok false
  | t :: rest => do
    let kt ← hashKey t
    if kt = k ∧ t.movable_idx_board = s.movable_idx_board then .ok true
    else seenAny s k rest

/-- Python `state in seen_states`. -/
def stateMem (seen : List State) (s : State) : Exc Bool := do
  let k ← hashKey s
  seenAny s k seen

/-- Result entries of `solve`: the early-win return puts the raw input state
in the list, every other return puts transition records. -/
inductive SolveEntry where
  | st : State → SolveEntry
  | tr : StateTransition → SolveEntry
deriving DecidableEq, Repr

/-- Path reconstruction of `solve`: walk parent indices back to the root
sentinel `-1`, prepending each transition. -/
def reconstruct : Nat → List (Int × StateTransition) → Int → List StateTransition →
    Exc (List StateTransition)
  | 0, _, _, _ => .error .fuel
  | fuel+1, tree, parent_idx, acc =>
    if parent_idx = -1 then .ok acc
    else do
      let (p, t) ← pyGet tree parent_idx
      reconstruct fuel tree p (t :: acc)

/-- Per-expansion transition processing in `solve`: skip seen states, return
the first unseen win, otherwise record parent pointer, frontier entry and
seen-set entry. -/
def processTrans :
    List StateTransition → List State → List (Int × StateTransition) → List State →
    Int → Exc (Sum StateTransition (List State × (List (Int × StateTransition) × List State)))
  | [], seen, tree, queue, _parent => .ok (.inr (seen, tree, queue))
  | t :: rest, seen, tree, queue, parent => do
    let m ← stateMem seen t.state
    if m then processTrans rest seen tree queue parent
    else if is_win_state t.state then .ok (.inl t)
    else
      processTrans rest (seen ++ [t.state]) (tree ++ [(parent, t)])
        (queue ++ [t.state]) parent

/-- Main loop of `solve`: pop the frontier head, expand it, and either
reconstruct a found win or continue with the popped-state counter
incremented. An empty frontier raises. -/
def solveLoop (mf : Nat) :
    Nat → List State → List (Int × StateTransition) → List State → Nat →
    Exc (List StateTransition)
  | 0, _, _, _, _ => .error .fuel
  | fuel+1, seen, tree, queue, state_idx =>
    match queue with
    | [] => .error .raised
    | s :: queue2 => do
      let trs ← get_all_state_transitions mf s
      let r ← processTrans trs seen tree queue2 (state_idx : Int)
      match r with
      | .inl t => reconstruct (tree.length + 1) tree (state_idx : Int) [t]
      | .inr (seen2, tree2, queue3) => solveLoop mf fuel seen2 tree2 queue3 (state_idx + 1)

/-- `solve`: immediate-win short circuit returning the input state itself,
then the depth-one loop with root parent `-1`, then breadth-first search. -/
def solve (fuel mf : Nat) (puzzle : State) : Exc (List SolveEntry) :=
  if is_win_state puzzle then .ok [.st puzzle]
  else do
    let trs ← get_all_state_transitions mf puzzle
    let r ← processTrans trs [puzzle] [] [] (-1)
    match r with
    | .inl t => .ok [.tr t]
    | .inr (seen, tree, queue) => do
      let l ← solveLoop mf fuel seen tree queue 0
      .ok (l.map .tr)

instance {ε α : Type} [DecidableEq ε] [DecidableEq α] : DecidableEq (Except ε α) := fun x y =>
  match x, y with
  | .ok a, .ok b => if h : a = b then .isTrue (by rw [h]) else .isFalse (by simp [h])
  | .ok _, .error _ => .isFalse (by simp)
  | .error _, .ok _ => .isFalse (by simp)
  | .error e, .error f => if h : e = f then .isTrue (by rw [h]) else .isFalse (by simp [h])

/-- Extract the state from a successful construction; construction facts are
always proved alongside, so the fallback is never reached in the fixtures. -/
def excToState (e : Exc State) : State :=
  match e with
  | .ok t => t
  | .error _ => ⟨[], 0, 0, [], [], [], []⟩

/-- Three blocks on a floored five-by-two board. Movable 0 (the mover) sits at
column 1, movable 1 at column 2, movable 2 at column 0; movables 0 and 1 are
each attached to movable 2. -/
def fixOverlap : State := excToState (mkState
  [mkBlock [⟨1, 0⟩], mkBlock [⟨2, 0⟩], mkBlock [⟨0, 0⟩]]
  [⟨0, 1⟩, ⟨1, 1⟩, ⟨2, 1⟩, ⟨3, 1⟩, ⟨4, 1⟩] 5 2
  [(0, [2]), (1, [2]), (2, [])])

/-- Two mutually attached adjacent red jellies and a block, on a floored
four-by-two board. -/
def fixFuseAttached : State := excToState (mkState
  [mkJelly [⟨0, 0⟩] .red false, mkJelly [⟨1, 0⟩] .red false, mkBlock [⟨3, 0⟩]]
  [⟨0, 1⟩, ⟨1, 1⟩, ⟨2, 1⟩, ⟨3, 1⟩] 4 2
  [(0, [1]), (1, [0])])

/-- A single red jelly on a floored one-by-two board: already a win state. -/
def fixWinOnly : State := excToState (mkState
  [mkJelly [⟨0, 0⟩] .red false] [⟨0, 1⟩] 1 2 [])

/-- The exact concrete scenario of the claim: width three, height one, no
tiles, red jellies at columns 0 and 2, no attachments. -/
def fixScenario : State := excToState (mkState
  [mkJelly [⟨0, 0⟩] .red false, mkJelly [⟨2, 0⟩] .red false] [] 3 1 [])

/-- The same scenario on a height-two board with a tile floor under row 0, so
that gravity's below-cell lookups stay inside the grid. -/
def fixScenarioFloored : State := excToState (mkState
  [mkJelly [⟨0, 0⟩] .red false, mkJelly [⟨2, 0⟩] .red false]
  [⟨0, 1⟩, ⟨1, 1⟩, ⟨2, 1⟩] 3 2 [])

/-- C3. The no-overlap invariant fails on a reachable state: from the
well-formed `fixOverlap` (all cells distinct, no tiles under any movable),
the single successful move of movable 0 to the right returns a state in
which movable 0 and movable 2 both occupy the coordinate x = 2, y = 0.
The push loop moves movable 2 once through the attachment of the pushed
movable 1, and the attachment loop of movable 0 — whose visited set never
learns of that inner push — moves it a second time onto the mover's own
destination cell. -/
theorem reachable_state_overlaps_two_movables :
    mkState
      [mkBlock [⟨1, 0⟩], mkBlock [⟨2, 0⟩], mkBlock [⟨0, 0⟩]]
      [⟨0, 1⟩, ⟨1, 1⟩, ⟨2, 1⟩, ⟨3, 1⟩, ⟨4, 1⟩] 5 2
      [(0, [2]), (1, [2]), (2, [])] = .ok fixOverlap ∧
    (State.move 30 fixOverlap 0 .right).map
        (Option.map (fun t => t.movables.map Movable.coords)) =
      .ok (some [[⟨2, 0⟩], [⟨3, 0⟩], [⟨2, 0⟩]]) := by
  constructor
  · decide
  · decide

/-- C5. When fusion removes index 1 after merging the mutually attached
jellies 0 and 1, the survivor's merged attachment set keeps the edge to the
removed index 1 instead of redirecting it to the surviving index 0: the
adjusted map is 0 mapped to the pair of 0 and 1, where index 1 now denotes
the shifted-down block. The subsequent chunk rebuild then indexes the
missing key 1 and the whole fusion call raises KeyError. -/
theorem adjust_after_fusing_keeps_stale_edge :
    adjustMap [(0, [1]), (1, [0])] 0 1 = [(0, [0, 1])] ∧
    mkState
      [mkJelly [⟨0, 0⟩] .red false, mkJelly [⟨1, 0⟩] .red false, mkBlock [⟨3, 0⟩]]
      [⟨0, 1⟩, ⟨1, 1⟩, ⟨2, 1⟩, ⟨3, 1⟩] 4 2
      [(0, [1]), (1, [0])] = .ok fixFuseAttached ∧
    fuse_movables 30 fixFuseAttached = .error .keyErr := by
  refine ⟨by decide, by decide, by decide⟩

/-- C8. On an input that is already a win, `solve` returns a one-element
list whose entry is the raw input state, not a transition record, violating
its own annotated return type. -/
theorem solve_immediate_win_returns_raw_state :
    mkState [mkJelly [⟨0, 0⟩] .red false] [⟨0, 1⟩] 1 2 [] = .ok fixWinOnly ∧
    is_win_state fixWinOnly = true ∧
    solve 30 30 fixWinOnly = .ok [SolveEntry.st fixWinOnly] := by
  refine ⟨by decide, by decide, by decide⟩

/-- C9, counterexample. On the exact claimed board (width three, height one),
`move(0, right)` does not succeed: the gravity pass looks up the cell below
row 0, whose flat index lies past the end of the boards, and the call raises
IndexError. -/
theorem scenario_move_right_raises_index_error :
    mkState [mkJelly [⟨0, 0⟩] .red false, mkJelly [⟨2, 0⟩] .red false] [] 3 1 [] =
      .ok fixScenario ∧
    State.move 30 fixScenario 0 .right = .error .indexErr := by
  refine ⟨by decide, by decide⟩

/-- C9, amended. On the same scenario with a floor of tiles one row below,
`move(0, right)` succeeds, movable 0 reaches x = 1, fusion merges the two
red jellies into a single unanchored red jelly spanning the cells x = 1 and
x = 2 of row 0, and the result is a win state. -/
theorem scenario_with_floor_fuses_and_wins :
    mkState
      [mkJelly [⟨0, 0⟩] .red false, mkJelly [⟨2, 0⟩] .red false]
      [⟨0, 1⟩, ⟨1, 1⟩, ⟨2, 1⟩] 3 2 [] = .ok fixScenarioFloored ∧
    (State.move 30 fixScenarioFloored 0 .right).map
        (Option.map (fun t => (t.movables, is_win_state t))) =
      .ok (some ([mkJelly [⟨1, 0⟩, ⟨2, 0⟩] .red false], true)) := by
  refine ⟨by decide, by decide⟩

/-- A single red jelly on a one-by-one board. -/
def fixColorA : State := excToState (mkState [mkJelly [⟨0, 0⟩] .red false] [] 1 1 [])

/-- The same layout with a green jelly instead. -/
def fixColorB : State := excToState (mkState [mkJelly [⟨0, 0⟩] .green false] [] 1 1 [])

/-- C7. The seen-set identity separates same-layout states of different
colors: a membership hit needs the stored hash (index and color per cell)
to match as well as the index-board comparison of eq, so two states with
identical index boards but different hashed keys never suppress each
other. -/
theorem seen_set_distinguishes_colors (a b : State)
    (ka kb : List (Option (Nat × Color)))
    (hka : hashKey a = .ok ka) (hkb : hashKey b = .ok kb) (hne : ka ≠ kb) :
    stateMem [a] b = .ok false ∧ stateMem [b] a = .ok false := by
  constructor
  · simp only [stateMem, hkb, seenAny, hka, Bind.bind, Except.bind]
    rw [if_neg]
    rintro ⟨h1, _⟩
    exact hne h1
  · simp only [stateMem, hka, seenAny, hkb, Bind.bind, Except.bind]
    rw [if_neg]
    rintro ⟨h1, _⟩
    exact hne h1.symm

/-- C7 witness: the red and the green one-cell states have equal index
boards yet neither is seen as a member of a seen-set holding the other. -/
theorem seen_set_distinguishes_colors_witness :
    stateMem [fixColorA] fixColorB = .ok false ∧
    stateMem [fixColorB] fixColorA = .ok false :=
  seen_set_distinguishes_colors fixColorA fixColorB
    [some (0, .red)] [some (0, .green)] (by decide) (by decide) (by decide)

/-- Reads past the physical end of a Python list raise IndexError. -/
theorem pyGet_ge_len {α : Type} (l : List α) (i : Int)
    (h : (l.length : Int) ≤ i) : pyGet l i = .error .indexErr := by
  unfold pyGet
  rw [dif_neg, dif_neg] <;> omega

/-- In-range reads succeed. -/
theorem pyGet_isOk {α : Type} (l : List α) (i : Int)
    (h0 : 0 ≤ i) (h1 : i < (l.length : Int)) : (pyGet l i).isOk = true := by
  unfold pyGet
  rw [dif_pos ⟨h0, h1⟩]
  rfl

/-- C10. The lookups are not bounds-checked: with boards of the usual
width-times-height size, any coordinate on row y = height flattens to an
index past the end of the array and the lookup raises IndexError, while
x = -1 flattens to the same index as the last cell of the previous row
(Python's negative-index wraparound), so the lookup reports whatever
occupies that cell, succeeding whenever that row is inside the grid. -/
theorem lookup_bounds_behaviour (s : State) (x y : Int) :
    (s.movable_idx_board.length = s.width * s.height → 0 ≤ x →
      lookup_movable s ⟨x, (s.height : Int)⟩ = .error .indexErr) ∧
    (s.tile_board.length = s.width * s.height → 0 ≤ x →
      lookup_tile s ⟨x, (s.height : Int)⟩ = .error .indexErr) ∧
    (lookup_movable s ⟨-1, y⟩ = lookup_movable s ⟨(s.width : Int) - 1, y - 1⟩) ∧
    (lookup_tile s ⟨-1, y⟩ = lookup_tile s ⟨(s.width : Int) - 1, y - 1⟩) ∧
    (s.movable_idx_board.length = s.width * s.height → 1 ≤ y →
      y ≤ (s.height : Int) → 1 ≤ s.width →
      (lookup_movable s ⟨-1, y⟩).isOk = true) := by
  have hidx : coord_to_index s ⟨-1, y⟩ =
      coord_to_index s ⟨(s.width : Int) - 1, y - 1⟩ := by
    unfold coord_to_index
    ring
  refine ⟨?_, ?_, ?_, ?_, ?_⟩
  · intro hlen hx
    apply pyGet_ge_len
    rw [hlen]
    unfold coord_to_index
    push_cast
    nlinarith
  · intro hlen hx
    apply pyGet_ge_len
    rw [hlen]
    unfold coord_to_index
    push_cast
    nlinarith
  · unfold lookup_movable
    rw [hidx]
  · unfold lookup_tile
    rw [hidx]
  · intro hlen hy hyh hw
    apply pyGet_isOk
    · unfold coord_to_index
      dsimp only
      have hw1 : (1 : Int) ≤ (s.width : Int) := by exact_mod_cast hw
      nlinarith
    · rw [hlen]
      unfold coord_to_index
      dsimp only
      push_cast
      have hw1 : (1 : Int) ≤ (s.width : Int) := by exact_mod_cast hw
      nlinarith

/-- C10 witness: on the one-by-one fixture, row y = 1 errors, x = -1 at
y = 1 agrees with the lookup at the last cell of row 0, and that read
succeeds. -/
theorem lookup_bounds_behaviour_witness :
    lookup_movable fixColorA ⟨0, 1⟩ = .error .indexErr ∧
    lookup_tile fixColorA ⟨0, 1⟩ = .error .indexErr ∧
    lookup_movable fixColorA ⟨-1, 1⟩ = lookup_movable fixColorA ⟨0, 0⟩ ∧
    (lookup_movable fixColorA ⟨-1, 1⟩).isOk = true := by
  have h := lookup_bounds_behaviour fixColorA 0 1
  refine ⟨h.1 (by decide) (by decide), h.2.1 (by decide) (by decide), ?_, ?_⟩
  · exact h.2.2.1
  · exact h.2.2.2.2 (by decide) (by decide) (by decide) (by decide)

/-- Reads at a natural index reduce to plain bounds-checked indexing. -/
theorem pyGet_natCast {α : Type} (l : List α) (i : Nat) :
    pyGet l (i : Int) = if h : i < l.length then .ok l[i] else .error .indexErr := by
  unfold pyGet
  by_cases h : i < l.length
  · rw [dif_pos ⟨Int.natCast_nonneg i, by exact_mod_cast h⟩, dif_pos h]
    simp only [List.get_eq_getElem, Int.toNat_natCast]
  · rw [dif_neg (by omega), dif_neg (by omega), dif_neg h]

/-- Writes at a natural index reduce to plain bounds-checked updates. -/
theorem pySet_natCast {α : Type} (l : List α) (i : Nat) (a : α) :
    pySet l (i : Int) a =
      if i < l.length then .ok (l.set i a) else .error .indexErr := by
  unfold pySet
  by_cases h : i < l.length
  · rw [if_pos ⟨Int.natCast_nonneg i, by exact_mod_cast h⟩, if_pos h]
    simp only [Int.toNat_natCast]
  · rw [if_neg (by omega), if_neg (by omega), if_neg h]

/-- A successful read returns an element of the list. -/
theorem pyGet_mem {α : Type} {l : List α} {i : Int} {a : α}
    (h : pyGet l i = .ok a) : a ∈ l := by
  unfold pyGet at h
  split at h
  · injection h with h
    rw [← h]
    exact List.get_mem _ _ _
  · split at h
    · injection h with h
      rw [← h]
      exact List.get_mem _ _ _
    · exact absurd h (by simp)

/-- The data-model constraint on piece variants: a movable is a Jelly
exactly when its color is not the Block sentinel. -/
def WellColored (s : State) : Prop :=
  ∀ m ∈ s.movables, (m.kind = MovKind.jelly ↔ m.color ≠ Color.x)

/-- Two red jellies side by side on a floored two-by-two board. -/
def fixAdjacent : State := excToState (mkState
  [mkJelly [⟨0, 0⟩] .red false, mkJelly [⟨1, 0⟩] .red false]
  [⟨0, 1⟩, ⟨1, 1⟩] 2 2 [])

/-- C4. In a state whose movables respect the data model, a fusion trigger
fires only when the scanned movable and the neighbour are both Jellies of
identical color, and the merge replaces the scanned movable by one whose
coordinate count is the sum of the two inputs' counts and whose anchored
flag is the OR of the two inputs' flags. -/
theorem fusion_merge_gating_and_result (s : State) (pos mIdx coordIdx n : Nat)
    (d : Direction) (hw : WellColored s) (hnp : n ≠ pos)
    (hcond : fuseCond s pos mIdx coordIdx d = .ok (some n)) :
    ∃ mv nmv,
      pyGet s.movables (pos : Int) = .ok mv ∧
      pyGet s.movables (n : Int) = .ok nmv ∧
      mv.kind = .jelly ∧ nmv.kind = .jelly ∧ nmv.color = mv.color ∧
      ∀ t pos2, mergeStep s pos n = .ok (t, pos2) →
        ∃ merged, pyGet t.movables (pos2 : Int) = .ok merged ∧
          merged.coords.length = mv.coords.length + nmv.coords.length ∧
          merged.is_anchored = (mv.is_anchored || nmv.is_anchored) := by
  unfold fuseCond at hcond
  simp only [Bind.bind, Except.bind] at hcond
  cases hmv : pyGet s.movables (pos : Int) with
  | error e =>
    rw [hmv] at hcond
    exact Except.noConfusion hcond
  | ok mv =>
  rw [hmv] at hcond
  dsimp only at hcond
  cases hc : pyGet mv.coords (coordIdx : Int) with
  | error e =>
    rw [hc] at hcond
    exact Except.noConfusion hcond
  | ok c =>
  rw [hc] at hcond
  dsimp only at hcond
  cases hl : lookup_movable s (c.add d) with
  | error e =>
    rw [hl] at hcond
    exact Except.noConfusion hcond
  | ok nopt =>
  rw [hl] at hcond
  dsimp only at hcond
  cases nopt with
  | none => exact Option.noConfusion (Except.ok.inj hcond)
  | some n0 =>
  dsimp only at hcond
  by_cases hnm : n0 = mIdx
  · rw [if_pos hnm] at hcond
    exact Option.noConfusion (Except.ok.inj hcond)
  · rw [if_neg hnm] at hcond
    by_cases hkind : mv.kind ≠ MovKind.jelly
    · rw [if_pos hkind] at hcond
      exact Option.noConfusion (Except.ok.inj hcond)
    · rw [if_neg hkind] at hcond
      push_neg at hkind
      cases hn : pyGet s.movables (n0 : Int) with
      | error e =>
        rw [hn] at hcond
        exact Except.noConfusion hcond
      | ok nmv =>
      rw [hn] at hcond
      dsimp only at hcond
      by_cases hcol : nmv.color = mv.color
      · rw [if_pos hcol] at hcond
        have hn0 : n0 = n := Option.some.inj (Except.ok.inj hcond)
        subst hn0
        have hmvmem : mv ∈ s.movables := pyGet_mem hmv
        have hnmem : nmv ∈ s.movables := pyGet_mem hn
        have hmvx : mv.color ≠ Color.x := (hw mv hmvmem).mp hkind
        have hnkind : nmv.kind = MovKind.jelly := by
          apply (hw nmv hnmem).mpr
          rw [hcol]
          exact hmvx
        refine ⟨mv, nmv, rfl, hn, hkind, hnkind, hcol, ?_⟩
        intro t pos2 hms
        have hposlen : pos < s.movables.length := by
          rw [pyGet_natCast] at hmv
          by_contra hcon
          rw [dif_neg hcon] at hmv
          exact Except.noConfusion hmv
        have hnlen : n0 < s.movables.length := by
          rw [pyGet_natCast] at hn
          by_contra hcon
          rw [dif_neg hcon] at hn
          exact Except.noConfusion hn
        unfold mergeStep at hms
        simp only [Bind.bind, Except.bind] at hms
        rw [hmv] at hms
        dsimp only at hms
        rw [hn] at hms
        dsimp only at hms
        rw [pySet_natCast, if_pos hposlen] at hms
        dsimp only at hms
        unfold pyDel at hms
        rw [List.length_set] at hms
        rw [if_pos hnlen] at hms
        dsimp only at hms
        simp only [Except.ok.injEq, Prod.mk.injEq] at hms
        obtain ⟨hts, hpos2⟩ := hms
        have hlen3 : (mv.coords ++ nmv.coords).length =
            mv.coords.length + nmv.coords.length := List.length_append _ _
        refine ⟨{ mv with coords := mv.coords ++ nmv.coords, is_anchored := mv.is_anchored || nmv.is_anchored }, ?_, hlen3, rfl⟩
        rw [← hts, ← hpos2]
        dsimp only
        have hlen2 : ((s.movables.set pos { mv with coords := mv.coords ++ nmv.coords, is_anchored := mv.is_anchored || nmv.is_anchored }).eraseIdx n0).length = s.movables.length - 1 := by
          rw [List.length_eraseIdx]
          simp [List.length_set, hnlen]
        by_cases hlt : n0 < pos
        · have hp2 : (if n0 < pos then pos - 1 else pos) = pos - 1 := if_pos hlt
          rw [hp2, pyGet_natCast, dif_pos (by rw [hlen2]; omega)]
          congr 1
          rw [List.getElem_eraseIdx]
          rw [dif_neg (by omega)]
          have hidx : pos - 1 + 1 = pos := by omega
          simp [hidx, List.getElem_set]
        · have hpn : pos < n0 := by omega
          have hp2 : (if n0 < pos then pos - 1 else pos) = pos := if_neg hlt
          rw [hp2, pyGet_natCast, dif_pos (by rw [hlen2]; omega)]
          congr 1
          rw [List.getElem_eraseIdx]
          rw [dif_pos hpn]
          simp [List.getElem_set]
      · rw [if_neg hcol] at hcond
        exact Option.noConfusion (Except.ok.inj hcond)

/-- C4 witness: on the two adjacent red jellies, the trigger at movable 0,
coordinate 0, direction right fires on neighbour 1, and the instantiated
theorem yields the merged two-cell red jelly. -/
theorem fusion_merge_gating_and_result_witness :
    WellColored fixAdjacent ∧
    (∃ mv nmv,
      pyGet fixAdjacent.movables ((0 : Nat) : Int) = .ok mv ∧
      pyGet fixAdjacent.movables ((1 : Nat) : Int) = .ok nmv ∧
      mv.kind = .jelly ∧ nmv.kind = .jelly ∧ nmv.color = mv.color ∧
      ∀ t pos2, mergeStep fixAdjacent 0 1 = .ok (t, pos2) →
        ∃ merged, pyGet t.movables (pos2 : Int) = .ok merged ∧
          merged.coords.length = mv.coords.length + nmv.coords.length ∧
          merged.is_anchored = (mv.is_anchored || nmv.is_anchored)) :=
  ⟨by unfold WellColored; decide,
   fusion_merge_gating_and_result fixAdjacent 0 0 0 1 .right
     (by unfold WellColored; decide) (by decide) (by decide)⟩

/-- `_rebuild_board` only replaces the movable occupancy array. -/
theorem rebuild_board_fields {s t : State} (h : rebuild_board s = .ok t) :
    t.tile_board = s.tile_board ∧ t.width = s.width ∧ t.movables = s.movables ∧
    t.attached_movables = s.attached_movables ∧
    t.attached_chunks = s.attached_chunks ∧ t.height = s.height := by
  unfold rebuild_board at h
  simp only [Bind.bind, Except.bind] at h
  cases hw : writeMovables s.width 0 s.movables
      (List.replicate (s.width * s.height) none) with
  | error e => rw [hw] at h; exact Except.noConfusion h
  | ok b =>
    rw [hw] at h
    dsimp only at h
    have ht := Except.ok.inj h
    subst ht
    exact ⟨rfl, rfl, rfl, rfl, rfl, rfl⟩

/-- `_rebuild_attached_chunks` only replaces the chunk list. -/
theorem rebuild_attached_chunks_fields {s t : State}
    (h : rebuild_attached_chunks s = .ok t) :
    t.tile_board = s.tile_board ∧ t.width = s.width ∧ t.movables = s.movables ∧
    t.attached_movables = s.attached_movables ∧ t.height = s.height := by
  unfold rebuild_attached_chunks at h
  simp only [Bind.bind, Except.bind] at h
  cases hc : chunksGo s.attached_movables s.movables.length 0 [] [] with
  | error e => rw [hc] at h; exact Except.noConfusion h
  | ok chunks =>
    rw [hc] at h
    dsimp only at h
    have ht := Except.ok.inj h
    subst ht
    exact ⟨rfl, rfl, rfl, rfl, rfl⟩

/-- `State.__init__` keeps the movables, dimensions and attachment map it
was given. -/
theorem mkState_fields {ms : List Movable} {tl : List Coord} {w hgt : Nat}
    {att : AttMap} {t : State} (h : mkState ms tl w hgt att = .ok t) :
    t.width = w ∧ t.height = hgt ∧ t.movables = ms ∧
    t.attached_movables = att := by
  unfold mkState at h
  simp only [Bind.bind, Except.bind] at h
  cases h1 : rebuild_attached_chunks
      ⟨ms, w, hgt, [], List.replicate (w * hgt) false, att, []⟩ with
  | error e => rw [h1] at h; exact Except.noConfusion h
  | ok s1 =>
    rw [h1] at h
    dsimp only at h
    cases h2 : writeTiles w tl s1.tile_board with
    | error e => rw [h2] at h; exact Except.noConfusion h
    | ok tb =>
      rw [h2] at h
      dsimp only at h
      obtain ⟨hf1, hf2, hf3, hf4, hf5⟩ := rebuild_attached_chunks_fields h1
      obtain ⟨_, hw2, hm2, ha2, _, hh2⟩ := rebuild_board_fields h
      refine ⟨?_, ?_, ?_, ?_⟩
      · rw [hw2]
        exact hf2
      · rw [hh2]
        exact hf5
      · rw [hm2]
        exact hf3
      · rw [ha2]
        exact hf4

/-- `State.clone` keeps the shared tile board and the dimensions. -/
theorem clone_fields {s t : State} (h : clone s = .ok t) :
    t.tile_board = s.tile_board ∧ t.width = s.width := by
  unfold clone at h
  simp only [Bind.bind, Except.bind] at h
  cases hm : mkState s.movables [] s.width s.height s.attached_movables with
  | error e => rw [hm] at h; exact Except.noConfusion h
  | ok u =>
    rw [hm] at h
    dsimp only at h
    have ht := Except.ok.inj h
    subst ht
    exact ⟨rfl, (mkState_fields hm).1⟩

/-- Tile lookups only read the tile board through the width, so they agree
between states sharing both. -/
theorem lookup_tile_congr {s t : State} (c : Coord)
    (htile : t.tile_board = s.tile_board) (hw : t.width = s.width) :
    lookup_tile t c = lookup_tile s c := by
  unfold lookup_tile coord_to_index
  rw [htile, hw]

/-- Every state produced by a successful push-propagation run shares the
input state's tile board and width: pushes only rearrange movables and
rebuild the movable board. -/
theorem mmRun_preserves_tiles (fuel : Nat) :
    ∀ fr s d m st mv, mmRun fuel fr s d m = .ok (some (st, mv)) →
      st.tile_board = s.tile_board ∧ st.width = s.width := by
  induction fuel with
  | zero =>
    intro fr s d m st mv h
    exact Except.noConfusion h
  | succ n ih =>
    intro fr s d m st mv h
    cases fr with
    | main idx =>
      unfold mmRun at h
      simp only [Bind.bind, Except.bind] at h
      cases hmv : pyGet s.movables (idx : Int) with
      | error e => rw [hmv] at h; exact Except.noConfusion h
      | ok mv0 =>
      rw [hmv] at h
      dsimp only at h
      by_cases hanch : mv0.is_anchored = true
      · rw [if_pos hanch] at h
        exact Option.noConfusion (Except.ok.inj h)
      · rw [if_neg hanch] at h
        cases hcl : clone s with
        | error e => rw [hcl] at h; exact Except.noConfusion h
        | ok st0 =>
        rw [hcl] at h
        dsimp only at h
        cases hr : mmRun n (.push idx mv0.coords) st0 d m with
        | error e => rw [hr] at h; exact Except.noConfusion h
        | ok r =>
        rw [hr] at h
        dsimp only at h
        cases r with
        | none => exact Option.noConfusion (Except.ok.inj h)
        | some p =>
        obtain ⟨st1, m1⟩ := p
        dsimp only at h
        cases hr2 : mmRun n
            (.attach idx (dictGetD st1.attached_movables idx [])) st1 d m1 with
        | error e => rw [hr2] at h; exact Except.noConfusion h
        | ok r2 =>
        rw [hr2] at h
        dsimp only at h
        cases r2 with
        | none => exact Option.noConfusion (Except.ok.inj h)
        | some p2 =>
        obtain ⟨st2, m2⟩ := p2
        dsimp only at h
        cases hcur : pyGet st2.movables (idx : Int) with
        | error e => rw [hcur] at h; exact Except.noConfusion h
        | ok cur =>
        rw [hcur] at h
        dsimp only at h
        cases hset : pySet st2.movables (idx : Int)
            { cur with coords := cur.coords.map (fun c => c.add d) } with
        | error e => rw [hset] at h; exact Except.noConfusion h
        | ok ms2 =>
        rw [hset] at h
        dsimp only at h
        cases hrb : rebuild_board { st2 with movables := ms2 } with
        | error e => rw [hrb] at h; exact Except.noConfusion h
        | ok st3 =>
        rw [hrb] at h
        dsimp only at h
        simp only [Except.ok.injEq, Option.some.injEq, Prod.mk.injEq] at h
        obtain ⟨hst, _⟩ := h
        subst hst
        obtain ⟨hcl1, hcl2⟩ := clone_fields hcl
        obtain ⟨hp1, hp2⟩ := ih _ _ _ _ _ _ hr
        obtain ⟨ha1, ha2⟩ := ih _ _ _ _ _ _ hr2
        obtain ⟨hb1, hb2, _⟩ := rebuild_board_fields hrb
        constructor
        · rw [hb1]
          dsimp only
          rw [ha1, hp1, hcl1]
        · rw [hb2]
          dsimp only
          rw [ha2, hp2, hcl2]
    | push idx coords =>
      cases coords with
      | nil =>
        unfold mmRun at h
        simp only [Except.ok.injEq, Option.some.injEq, Prod.mk.injEq] at h
        obtain ⟨hst, _⟩ := h
        subst hst
        exact ⟨rfl, rfl⟩
      | cons c rest =>
        unfold mmRun at h
        simp only [Bind.bind, Except.bind] at h
        cases ht : lookup_tile s (c.add d) with
        | error e => rw [ht] at h; exact Except.noConfusion h
        | ok tb =>
        rw [ht] at h
        dsimp only at h
        by_cases htb : tb = true
        · rw [if_pos htb] at h
          exact Option.noConfusion (Except.ok.inj h)
        · rw [if_neg htb] at h
          cases hp : lookup_movable s (c.add d) with
          | error e => rw [hp] at h; exact Except.noConfusion h
          | ok popt =>
          rw [hp] at h
          dsimp only at h
          cases popt with
          | none => exact ih _ _ _ _ _ _ h
          | some p =>
            dsimp only at h
            by_cases hmem : m.contains p = true
            · rw [if_pos hmem] at h
              exact ih _ _ _ _ _ _ h
            · rw [if_neg hmem] at h
              cases hr : mmRun n (.main p) s d (setInsert m p) with
              | error e => rw [hr] at h; exact Except.noConfusion h
              | ok r =>
              rw [hr] at h
              dsimp only at h
              cases r with
              | none => exact Option.noConfusion (Except.ok.inj h)
              | some q =>
              obtain ⟨st2, minner⟩ := q
              dsimp only at h
              obtain ⟨h1, h2⟩ := ih _ _ _ _ _ _ h
              obtain ⟨h3, h4⟩ := ih _ _ _ _ _ _ hr
              exact ⟨by rw [h1, h3], by rw [h2, h4]⟩
    | attach idx alist =>
      cases alist with
      | nil =>
        unfold mmRun at h
        simp only [Except.ok.injEq, Option.some.injEq, Prod.mk.injEq] at h
        obtain ⟨hst, _⟩ := h
        subst hst
        exact ⟨rfl, rfl⟩
      | cons a rest =>
        unfold mmRun at h
        simp only [Bind.bind, Except.bind] at h
        by_cases hmem : m.contains a = true
        · rw [if_pos hmem] at h
          exact ih _ _ _ _ _ _ h
        · rw [if_neg hmem] at h
          cases hr : mmRun n (.main a) s d (setInsert m a) with
          | error e => rw [hr] at h; exact Except.noConfusion h
          | ok r =>
          rw [hr] at h
          dsimp only at h
          cases r with
          | none => exact Option.noConfusion (Except.ok.inj h)
          | some q =>
          obtain ⟨st2, minner⟩ := q
          dsimp only at h
          obtain ⟨h1, h2⟩ := ih _ _ _ _ _ _ h
          obtain ⟨h3, h4⟩ := ih _ _ _ _ _ _ hr
          exact ⟨by rw [h1, h3], by rw [h2, h4]⟩

/-- If a tile sits at the destination of any coordinate the push loop will
visit, the loop can never return a successfully displaced state: tiles never
move, so the loop either fails at an earlier step or reaches that coordinate
and bails out. -/
theorem mmRun_push_tile_blocked (fuel : Nat) :
    ∀ idx coords s d m c st mv, c ∈ coords →
      lookup_tile s (c.add d) = .ok true →
      mmRun fuel (.push idx coords) s d m ≠ .ok (some (st, mv)) := by
  induction fuel with
  | zero =>
    intro idx coords s d m c st mv hcmem htile h
    exact Except.noConfusion h
  | succ n ih =>
    intro idx coords s d m c st mv hcmem htile h
    cases coords with
    | nil => exact absurd hcmem (List.not_mem_nil c)
    | cons c0 rest =>
      unfold mmRun at h
      simp only [Bind.bind, Except.bind] at h
      cases ht : lookup_tile s (c0.add d) with
      | error e => rw [ht] at h; exact Except.noConfusion h
      | ok tb =>
      rw [ht] at h
      dsimp only at h
      by_cases htb : tb = true
      · rw [if_pos htb] at h
        exact Option.noConfusion (Except.ok.inj h)
      · cases hcmem with
        | head =>
          rw [htile] at ht
          exact htb (Except.ok.inj ht).symm
        | tail _ hmem =>
          rw [if_neg htb] at h
          cases hp : lookup_movable s (c0.add d) with
          | error e => rw [hp] at h; exact Except.noConfusion h
          | ok popt =>
          rw [hp] at h
          dsimp only at h
          cases popt with
          | none => exact ih idx rest s d m c st mv hmem htile h
          | some p =>
            dsimp only at h
            by_cases hmemp : m.contains p = true
            · rw [if_pos hmemp] at h
              exact ih idx rest s d m c st mv hmem htile h
            · rw [if_neg hmemp] at h
              cases hr : mmRun n (.main p) s d (setInsert m p) with
              | error e => rw [hr] at h; exact Except.noConfusion h
              | ok r =>
              rw [hr] at h
              dsimp only at h
              cases r with
              | none => exact Option.noConfusion (Except.ok.inj h)
              | some q =>
              obtain ⟨st2, m2⟩ := q
              dsimp only at h
              obtain ⟨hpt, hpw⟩ := mmRun_preserves_tiles n _ _ _ _ _ _ hr
              have htile2 : lookup_tile st2 (c.add d) = .ok true := by
                rw [lookup_tile_congr (c.add d) hpt hpw]
                exact htile
              exact ih idx rest st2 d (setInsert m p) c st mv hmem htile2 h

/-- A red jelly anchored in place on a floored one-by-two board. -/
def fixAnchored : State := excToState (mkState
  [mkJelly [⟨0, 0⟩] .red true] [⟨0, 1⟩] 1 2 [])

/-- A red jelly with a tile directly to its right. -/
def fixTileBlocked : State := excToState (mkState
  [mkJelly [⟨0, 0⟩] .red false] [⟨1, 0⟩, ⟨0, 1⟩, ⟨1, 1⟩] 2 2 [])

/-- C2. Failed moves return no state: a non-lateral direction returns `None`
immediately, an anchored target returns `None` before any mutation, and a
tile at any destination cell of the moved movable makes a successful result
impossible — the input state value is never modified, so nothing partial is
observable. -/
theorem move_failure_yields_no_state (fuel : Nat) (s : State)
    (movable_idx : Nat) (direction : Direction) :
    (direction = .up ∨ direction = .down →
      State.move fuel s movable_idx direction = .ok none) ∧
    (∀ mv, 1 ≤ fuel → pyGet s.movables (movable_idx : Int) = .ok mv →
      mv.is_anchored = true →
      State.move fuel s movable_idx direction = .ok none) ∧
    (∀ mv c t, pyGet s.movables (movable_idx : Int) = .ok mv →
      c ∈ mv.coords → lookup_tile s (c.add direction) = .ok true →
      State.move fuel s movable_idx direction ≠ .ok (some t)) := by
  refine ⟨?_, ?_, ?_⟩
  · intro hd
    unfold State.move
    rw [if_neg]
    rcases hd with h | h <;> subst h <;> rintro (hh | hh) <;>
      exact Direction.noConfusion hh
  · intro mv hfuel hmv hanch
    unfold State.move
    by_cases hd : direction = .left ∨ direction = .right
    · rw [if_pos hd]
      obtain ⟨k, rfl⟩ : ∃ k, fuel = k + 1 := ⟨fuel - 1, by omega⟩
      simp only [Bind.bind, Except.bind]
      unfold mmRun
      simp only [Bind.bind, Except.bind]
      rw [hmv]
      dsimp only
      rw [if_pos hanch]
    · rw [if_neg hd]
  · intro mv c t hmv hcmem htile h
    unfold State.move at h
    by_cases hd : direction = .left ∨ direction = .right
    · rw [if_pos hd] at h
      simp only [Bind.bind, Except.bind] at h
      cases hr : mmRun fuel (.main movable_idx) s direction [movable_idx] with
      | error e => rw [hr] at h; exact Except.noConfusion h
      | ok r =>
      rw [hr] at h
      dsimp only at h
      cases r with
      | none => exact Option.noConfusion (Except.ok.inj h)
      | some p =>
        obtain ⟨st0, m0⟩ := p
        cases fuel with
        | zero => exact Except.noConfusion hr
        | succ k =>
          unfold mmRun at hr
          simp only [Bind.bind, Except.bind] at hr
          rw [hmv] at hr
          dsimp only at hr
          by_cases hanch : mv.is_anchored = true
          · rw [if_pos hanch] at hr
            exact Option.noConfusion (Except.ok.inj hr)
          · rw [if_neg hanch] at hr
            cases hcl : clone s with
            | error e => rw [hcl] at hr; exact Except.noConfusion hr
            | ok stc =>
            rw [hcl] at hr
            dsimp only at hr
            cases hpush : mmRun k (.push movable_idx mv.coords) stc direction
                [movable_idx] with
            | error e => rw [hpush] at hr; exact Except.noConfusion hr
            | ok rp =>
            rw [hpush] at hr
            dsimp only at hr
            cases rp with
            | none => exact Option.noConfusion (Except.ok.inj hr)
            | some q =>
              obtain ⟨st1, m1⟩ := q
              obtain ⟨hct, hcw⟩ := clone_fields hcl
              have htile2 : lookup_tile stc (c.add direction) = .ok true := by
                rw [lookup_tile_congr (c.add direction) hct hcw]
                exact htile
              exact mmRun_push_tile_blocked k movable_idx mv.coords stc
                direction [movable_idx] c st1 m1 hcmem htile2 hpush
    · rw [if_neg hd] at h
      exact Option.noConfusion (Except.ok.inj h)

/-- C2 witness: a vertical move returns `None`, moving the anchored jelly
returns `None`, and moving into the tile can never return a state. -/
theorem move_failure_yields_no_state_witness :
    State.move 10 fixColorA 0 .up = .ok none ∧
    State.move 10 fixAnchored 0 .left = .ok none ∧
    State.move 10 fixTileBlocked 0 .right ≠ .ok (some fixTileBlocked) :=
  ⟨(move_failure_yields_no_state 10 fixColorA 0 .up).1 (Or.inl rfl),
   (move_failure_yields_no_state 10 fixAnchored 0 .left).2.1
     (mkJelly [⟨0, 0⟩] .red true) (by decide) (by decide) (by decide),
   (move_failure_yields_no_state 10 fixTileBlocked 0 .right).2.2
     (mkJelly [⟨0, 0⟩] .red false) ⟨0, 0⟩ fixTileBlocked
     (by decide) (by decide) (by decide)⟩

/-- A successful read certifies the index is in range. -/
theorem pyGet_nat_lt {α : Type} {l : List α} {j : Nat} {a : α}
    (h : pyGet l (j : Int) = .ok a) : j < l.length := by
  rw [pyGet_natCast] at h
  by_contra hc
  rw [dif_neg hc] at h
  exact Except.noConfusion h

/-- In-range reads at natural indices return the indexed element. -/
theorem pyGet_nat_of_lt {α : Type} {l : List α} {j : Nat} (hlt : j < l.length) :
    pyGet l (j : Int) = .ok l[j] := by
  rw [pyGet_natCast, dif_pos hlt]

/-- Modelled from the spec wording for gravity support: the cell directly
below a coordinate of movable `i` is empty (no tile, no movable), occupied
by the movable itself, or occupied by a movable in the movable's own direct
attachment set. -/
def belowFree (s : State) (i : Nat) (c : Coord) : Prop :=
  lookup_tile s (c.add .down) = .ok false ∧
  (lookup_movable s (c.add .down) = .ok none ∨
   lookup_movable s (c.add .down) = .ok (some i) ∨
   ∃ j, lookup_movable s (c.add .down) = .ok (some j) ∧
     (dictGetD s.attached_movables i []).contains j = true)

/-- Modelled from the spec wording: a chunk may fall one row only if no
member is anchored and every coordinate of every member has a free cell
below it in the sense of `belowFree`. -/
def chunkFallSpec (s : State) (chunk : List Nat) : Prop :=
  ∀ i ∈ chunk, ∃ mv, pyGet s.movables (i : Int) = .ok mv ∧
    mv.is_anchored = false ∧ ∀ c ∈ mv.coords, belowFree s i c

/-- The coordinate loop of the gravity support check computes exactly the
`belowFree` condition over the scanned coordinates. -/
theorem coordsClear_iff (s : State) (i : Nat) :
    ∀ coords b, coordsClear s i coords = .ok b →
      (b = true ↔ ∀ c ∈ coords, belowFree s i c) := by
  intro coords
  induction coords with
  | nil =>
    intro b h
    unfold coordsClear at h
    have hb := Except.ok.inj h
    subst hb
    simp
  | cons c rest ih =>
    intro b h
    unfold coordsClear at h
    simp only [Bind.bind, Except.bind] at h
    cases hm : lookup_movable s (c.add .down) with
    | error e => rw [hm] at h; exact Except.noConfusion h
    | ok om =>
    rw [hm] at h
    dsimp only at h
    cases ht : lookup_tile s (c.add .down) with
    | error e => rw [ht] at h; exact Except.noConfusion h
    | ok tb =>
    rw [ht] at h
    dsimp only at h
    cases om with
    | none =>
      simp only [Bool.or_false] at h
      by_cases htb : tb = true
      · rw [if_pos htb] at h
        have hb := Except.ok.inj h
        subst hb
        simp only [Bool.false_eq_true, false_iff]
        intro hall
        obtain ⟨htile, _⟩ := hall c (List.mem_cons_self c rest)
        rw [ht, htb] at htile
        exact Bool.noConfusion (Except.ok.inj htile)
      · rw [if_neg htb] at h
        have htb2 : tb = false := Bool.of_not_eq_true htb
        subst htb2
        rw [ih b h]
        constructor
        · intro hr c2 hc2
          rcases List.mem_cons.mp hc2 with hh | hh
          · rw [hh]
            exact ⟨ht, Or.inl hm⟩
          · exact hr c2 hh
        · intro hall c2 hc2
          exact hall c2 (List.mem_cons_of_mem c hc2)
    | some j =>
      by_cases hbl : (tb || ((j != i) &&
          !(dictGetD s.attached_movables i []).contains j)) = true
      · rw [if_pos hbl] at h
        have hb := Except.ok.inj h
        subst hb
        simp only [Bool.false_eq_true, false_iff]
        intro hall
        obtain ⟨htile, hmov⟩ := hall c (List.mem_cons_self c rest)
        rcases Bool.or_eq_true_iff.mp hbl with htb | hmatch
        · rw [ht, htb] at htile
          exact Bool.noConfusion (Except.ok.inj htile)
        · simp only [Bool.and_eq_true] at hmatch
          obtain ⟨hne, hnc⟩ := hmatch
          have hji : j ≠ i := bne_iff_ne.mp hne
          have hcont : (dictGetD s.attached_movables i []).contains j = false := by
            simp only [Bool.not_eq_true'] at hnc
            exact hnc
          rcases hmov with hcase | hcase | ⟨j2, hcase, hmem⟩
          · rw [hm] at hcase
            exact Option.noConfusion (Except.ok.inj hcase)
          · rw [hm] at hcase
            exact hji (Option.some.inj (Except.ok.inj hcase))
          · rw [hm] at hcase
            have hjj : j = j2 := Option.some.inj (Except.ok.inj hcase)
            rw [← hjj] at hmem
            exact Bool.noConfusion (hcont.symm.trans hmem)
      · rw [if_neg hbl] at h
        have htb : tb = false := by
          cases tb with
          | false => rfl
          | true => exact absurd (Bool.or_eq_true_iff.mpr (Or.inl rfl)) hbl
        subst htb
        have hcfree : belowFree s i c := by
          refine ⟨ht, ?_⟩
          by_cases hji : j = i
          · subst hji
            exact Or.inr (Or.inl hm)
          · right; right
            refine ⟨j, hm, ?_⟩
            by_cases hcont : (dictGetD s.attached_movables i []).contains j = true
            · exact hcont
            · exfalso
              apply hbl
              apply Bool.or_eq_true_iff.mpr
              right
              rw [Bool.and_eq_true, bne_iff_ne]
              refine ⟨hji, ?_⟩
              rw [Bool.not_eq_true']
              exact Bool.of_not_eq_true hcont
        rw [ih b h]
        constructor
        · intro hr c2 hc2
          rcases List.mem_cons.mp hc2 with hh | hh
          · rw [hh]
            exact hcfree
          · exact hr c2 hh
        · intro hall c2 hc2
          exact hall c2 (List.mem_cons_of_mem c hc2)

/-- The per-chunk support check computes exactly the spec's fall
condition. -/
theorem chunkCanFall_iff (s : State) :
    ∀ chunk b, chunkCanFall s chunk = .ok b →
      (b = true ↔ chunkFallSpec s chunk) := by
  intro chunk
  induction chunk with
  | nil =>
    intro b h
    unfold chunkCanFall at h
    have hb := Except.ok.inj h
    subst hb
    simp [chunkFallSpec]
  | cons i rest ih =>
    intro b h
    unfold chunkCanFall at h
    simp only [Bind.bind, Except.bind] at h
    cases hmi : pyGet s.movables (i : Int) with
    | error e => rw [hmi] at h; exact Except.noConfusion h
    | ok mv =>
    rw [hmi] at h
    dsimp only at h
    by_cases hanch : mv.is_anchored = true
    · rw [if_pos hanch] at h
      have hb := Except.ok.inj h
      subst hb
      simp only [Bool.false_eq_true, false_iff]
      intro hall
      obtain ⟨mv2, hmv2, hanch2, _⟩ := hall i (List.mem_cons_self i rest)
      rw [hmi] at hmv2
      have : mv = mv2 := Except.ok.inj hmv2
      rw [← this] at hanch2
      exact Bool.noConfusion (hanch2.symm.trans hanch)
    · rw [if_neg hanch] at h
      cases hcc : coordsClear s i mv.coords with
      | error e => rw [hcc] at h; exact Except.noConfusion h
      | ok b0 =>
      rw [hcc] at h
      dsimp only at h
      cases b0 with
      | true =>
        rw [if_pos rfl] at h
        have hrest := ih b h
        rw [hrest]
        constructor
        · intro hr i2 hi2
          rcases List.mem_cons.mp hi2 with hh | hh
          · subst hh
            exact ⟨mv, hmi, Bool.of_not_eq_true hanch,
              (coordsClear_iff s i2 mv.coords true hcc).mp rfl⟩
          · exact hr i2 hh
        · intro hall i2 hi2
          exact hall i2 (List.mem_cons_of_mem i hi2)
      | false =>
        rw [if_neg (by simp)] at h
        have hb := Except.ok.inj h
        subst hb
        simp only [Bool.false_eq_true, false_iff]
        intro hall
        obtain ⟨mv2, hmv2, _, hcoords⟩ := hall i (List.mem_cons_self i rest)
        rw [hmi] at hmv2
        have hmm : mv = mv2 := Except.ok.inj hmv2
        rw [← hmm] at hcoords
        have := (coordsClear_iff s i mv.coords false hcc).mpr hcoords
        exact Bool.noConfusion this

/-- Falling translates every chunk member down one row and leaves every
other movable untouched. -/
theorem fallChunk_effect :
    ∀ (ch : List Nat) (s t : State), ch.Nodup → fallChunk ch s = .ok t →
      ∀ (j : Nat) (mv : Movable), pyGet s.movables (j : Int) = .ok mv →
        pyGet t.movables (j : Int) =
          .ok (if j ∈ ch then
            { mv with coords := mv.coords.map (fun c => c.add .down) }
          else mv) := by
  intro ch
  induction ch with
  | nil =>
    intro s t _ h j mv hj
    unfold fallChunk at h
    have ht := Except.ok.inj h
    subst ht
    simpa using hj
  | cons i rest ih =>
    intro s t hnd h j mv hj
    unfold fallChunk at h
    simp only [Bind.bind, Except.bind] at h
    cases hmi : pyGet s.movables (i : Int) with
    | error e => rw [hmi] at h; exact Except.noConfusion h
    | ok mvi =>
    rw [hmi] at h
    dsimp only at h
    cases hset : pySet s.movables (i : Int)
        { mvi with coords := mvi.coords.map (fun c => c.add .down) } with
    | error e => rw [hset] at h; exact Except.noConfusion h
    | ok ms =>
    rw [hset] at h
    dsimp only at h
    cases hrb : rebuild_board { s with movables := ms } with
    | error e => rw [hrb] at h; exact Except.noConfusion h
    | ok s2 =>
    rw [hrb] at h
    dsimp only at h
    have hilen : i < s.movables.length := pyGet_nat_lt hmi
    have hms : ms = s.movables.set i
        { mvi with coords := mvi.coords.map (fun c => c.add .down) } := by
      rw [pySet_natCast, if_pos hilen] at hset
      exact (Except.ok.inj hset).symm
    have hs2m : s2.movables = ms := by
      have := (rebuild_board_fields hrb).2.2.1
      simpa using this
    have hjlen : j < s.movables.length := pyGet_nat_lt hj
    have hinotr : i ∉ rest := (List.nodup_cons.mp hnd).1
    have hndr : rest.Nodup := (List.nodup_cons.mp hnd).2
    by_cases hji : j = i
    · subst hji
      have hmvi : mvi = mv := by
        rw [hmi] at hj
        exact Except.ok.inj hj
      subst hmvi
      have hs2get : pyGet s2.movables (j : Int) =
          .ok { mvi with coords := mvi.coords.map (fun c => c.add .down) } := by
        rw [hs2m, hms]
        rw [pyGet_nat_of_lt (by rw [List.length_set]; exact hjlen)]
        congr 1
        simp [List.getElem_set]
      have := ih s2 t hndr h j _ hs2get
      rw [this]
      rw [if_neg hinotr, if_pos (List.mem_cons_self j rest)]
    · have hs2get : pyGet s2.movables (j : Int) = .ok mv := by
        rw [hs2m, hms]
        rw [pyGet_nat_of_lt (by rw [List.length_set]; exact hjlen)]
        congr 1
        rw [List.getElem_set_ne (fun hh => hji hh.symm)]
        have := pyGet_nat_of_lt hjlen
        rw [this] at hj
        exact Except.ok.inj hj
      have := ih s2 t hndr h j mv hs2get
      rw [this]
      by_cases hjr : j ∈ rest
      · rw [if_pos hjr, if_pos (List.mem_cons_of_mem i hjr)]
      · rw [if_neg hjr, if_neg (by
          intro hmem
          rcases List.mem_cons.mp hmem with hh | hh
          · exact hji hh
          · exact hjr hh)]

/-- Once the sweep's moved flag is set it stays set. -/
theorem sweepGo_moved_mono :
    ∀ chunks (s t : State) m, sweepGo chunks s true = .ok (t, m) → m = true := by
  intro chunks
  induction chunks with
  | nil =>
    intro s t m h
    unfold sweepGo at h
    exact ((Prod.mk.injEq _ _ _ _).mp (Except.ok.inj h)).2.symm
  | cons c rest ih =>
    intro s t m h
    unfold sweepGo at h
    simp only [Bind.bind, Except.bind] at h
    cases hb : chunkCanFall s c with
    | error e => rw [hb] at h; exact Except.noConfusion h
    | ok b =>
    rw [hb] at h
    dsimp only at h
    cases b with
    | true =>
      rw [if_pos rfl] at h
      cases hf : fallChunk c s with
      | error e => rw [hf] at h; exact Except.noConfusion h
      | ok s2 =>
        rw [hf] at h
        dsimp only at h
        exact ih s2 t m h
    | false =>
      rw [if_neg (by simp)] at h
      exact ih s t m h

/-- A sweep that reports no motion left the state untouched. -/
theorem sweepGo_no_motion :
    ∀ chunks (s t : State), sweepGo chunks s false = .ok (t, false) → t = s := by
  intro chunks
  induction chunks with
  | nil =>
    intro s t h
    unfold sweepGo at h
    exact ((Prod.mk.injEq _ _ _ _).mp (Except.ok.inj h)).1.symm
  | cons c rest ih =>
    intro s t h
    unfold sweepGo at h
    simp only [Bind.bind, Except.bind] at h
    cases hb : chunkCanFall s c with
    | error e => rw [hb] at h; exact Except.noConfusion h
    | ok b =>
    rw [hb] at h
    dsimp only at h
    cases b with
    | true =>
      rw [if_pos rfl] at h
      cases hf : fallChunk c s with
      | error e => rw [hf] at h; exact Except.noConfusion h
      | ok s2 =>
        rw [hf] at h
        dsimp only at h
        exact absurd (sweepGo_moved_mono rest s2 t false h) (by simp)
    | false =>
      rw [if_neg (by simp)] at h
      exact ih s t h

/-- Gravity returns only at a fixpoint: one more sweep over the returned
state moves nothing. -/
theorem gravity_fixpoint (fuel : Nat) :
    ∀ s t, gravityFn fuel s = .ok t →
      sweepGo t.attached_chunks t false = .ok (t, false) := by
  induction fuel with
  | zero =>
    intro s t h
    exact Except.noConfusion h
  | succ n ih =>
    intro s t h
    unfold gravityFn at h
    simp only [Bind.bind, Except.bind] at h
    cases hs : sweepGo s.attached_chunks s false with
    | error e => rw [hs] at h; exact Except.noConfusion h
    | ok p =>
    rw [hs] at h
    obtain ⟨s2, moved⟩ := p
    dsimp only at h
    cases moved with
    | true =>
      rw [if_pos rfl] at h
      exact ih s2 t h
    | false =>
      rw [if_neg (by simp)] at h
      have ht := Except.ok.inj h
      subst ht
      have hss : s2 = s := sweepGo_no_motion _ _ _ hs
      rw [hss]
      rw [hss] at hs
      exact hs

/-- A red jelly floating one row above a tile on a one-by-three board. -/
def fixFall : State := excToState (mkState
  [mkJelly [⟨0, 0⟩] .red false] [⟨0, 2⟩] 1 3 [])

/-- The state after the single chunk of `fixFall` falls one row. -/
def fixFallStep : State := excToState (fallChunk [0] fixFall)

/-- The state after gravity settles `fixFall`. -/
def fixFallEnd : State := excToState (gravityFn 5 fixFall)

/-- C6. In each gravity sweep a chunk falls exactly when the spec's
condition holds: the support check returns true if and only if no member is
anchored and every coordinate of every member has, directly below, an empty
cell, the movable itself, or a member of that movable's own direct
attachment set; falling translates every chunk member down one row and
nothing else; and gravity returns only when a further full sweep moves
nothing. -/
theorem gravity_chunk_fall_characterisation (s t u : State)
    (chunk : List Nat) (b : Bool) (fuel : Nat) :
    (chunkCanFall s chunk = .ok b → (b = true ↔ chunkFallSpec s chunk)) ∧
    (chunk.Nodup → fallChunk chunk s = .ok t →
      ∀ (j : Nat) (mv : Movable), pyGet s.movables (j : Int) = .ok mv →
        pyGet t.movables (j : Int) =
          .ok (if j ∈ chunk then
            { mv with coords := mv.coords.map (fun c => c.add .down) }
          else mv)) ∧
    (gravityFn fuel s = .ok u →
      sweepGo u.attached_chunks u false = .ok (u, false)) :=
  ⟨chunkCanFall_iff s chunk b,
   fun hnd hf => fallChunk_effect chunk s t hnd hf,
   gravity_fixpoint fuel s u⟩

/-- C6 witness: the floating jelly's chunk satisfies the spec condition, the
fall moves it from row 0 to row 1, and settled gravity is a fixpoint. -/
theorem gravity_chunk_fall_characterisation_witness :
    chunkFallSpec fixFall [0] ∧
    pyGet fixFallStep.movables ((0 : Nat) : Int) =
      .ok (if 0 ∈ [0] then
        { mkJelly [⟨0, 0⟩] .red false with
          coords := (mkJelly [⟨0, 0⟩] .red false).coords.map (fun c => c.add .down) }
      else mkJelly [⟨0, 0⟩] .red false) ∧
    sweepGo fixFallEnd.attached_chunks fixFallEnd false = .ok (fixFallEnd, false) :=
  ⟨((gravity_chunk_fall_characterisation fixFall fixFallStep fixFallEnd
      [0] true 5).1 (by decide)).mp rfl,
   (gravity_chunk_fall_characterisation fixFall fixFallStep fixFallEnd
      [0] true 5).2.1 (by decide) (by decide) 0 (mkJelly [⟨0, 0⟩] .red false)
      (by decide),
   (gravity_chunk_fall_characterisation fixFall fixFallStep fixFallEnd
      [0] true 5).2.2 (by decide)⟩

/-- The move content of a solve entry: a transition record carries its
(movable index, direction) pair, the raw-state entry carries none. -/
def solveEntryMove : SolveEntry → Option (Nat × Direction)
  | .st _ => none
  | .tr t => some (t.movable_idx, t.direction)

/-- Modelled from the claim's notion of applying a sequence of lateral
moves in order: play each (index, direction) with `State.move`; a failed
move ends the run with `none`, otherwise the final state is returned. -/
def playMoves (mf : Nat) : State → List (Nat × Direction) → Exc (Option State)
  | s, [] => .ok (some s)
  | s, (i, d) :: rest => do
    let r ← State.move mf s i d
    match r with
    | none => .ok none
    | some st => playMoves mf st rest

/-- Modelled from the claim's replay notion: each listed transition's move
succeeds from the current state and produces exactly the recorded state,
and the state after the last transition satisfies the win test. -/
def replayWin (mf : Nat) : State → List StateTransition → Bool
  | s, [] => is_win_state s
  | s, t :: rest =>
    match State.move mf s t.movable_idx t.direction with
    | .ok (some st) => if st = t.state then replayWin mf t.state rest else false
    | _ => false

/-- A sound search-tree edge: the recorded move applied to the given state
yields exactly the recorded state. -/
def moveEdge (mf : Nat) (s : State) (t : StateTransition) : Prop :=
  State.move mf s t.movable_idx t.direction = Except.ok (some t.state)

/-- Every entry of the solve search tree has a parent pointer that is the
root sentinel or a valid tree index, and a move that is sound from the
corresponding parent state. -/
def TreeOk (mf : Nat) (puzzle : State) (tree : List (Int × StateTransition)) : Prop :=
  ∀ k, (hk : k < tree.length) →
    ((tree.get ⟨k, hk⟩).1 = -1 ∧ moveEdge mf puzzle (tree.get ⟨k, hk⟩).2) ∨
    (∃ j, ∃ hj : j < tree.length, (tree.get ⟨k, hk⟩).1 = (j : Int) ∧
      moveEdge mf (tree.get ⟨j, hj⟩).2.state (tree.get ⟨k, hk⟩).2)

/-- Every transition produced by the enumeration loop is a sound edge from
the enumerated state. -/
theorem transGo_sound (mf : Nat) (s : State) :
    ∀ (remaining idx : Nat) (trs : List StateTransition),
      transGo mf s remaining idx = .ok trs →
      ∀ t ∈ trs, moveEdge mf s t := by
  intro remaining
  induction remaining with
  | zero =>
    intro idx trs h t ht
    unfold transGo at h
    injection h with h
    rw [← h] at ht
    exact absurd ht (List.not_mem_nil t)
  | succ n ih =>
    intro idx trs h t ht
    unfold transGo at h
    simp only [Bind.bind, Except.bind] at h
    cases hl : State.move mf s idx .left with
    | error e => rw [hl] at h; exact Except.noConfusion h
    | ok l? =>
      rw [hl] at h
      dsimp only at h
      cases hr : State.move mf s idx .right with
      | error e => rw [hr] at h; exact Except.noConfusion h
      | ok r? =>
        rw [hr] at h
        dsimp only at h
        cases hrest : transGo mf s n (idx + 1) with
        | error e => rw [hrest] at h; exact Except.noConfusion h
        | ok rest =>
          rw [hrest] at h
          dsimp only at h
          injection h with h
          rw [← h] at ht
          have hrestcase : t ∈ rest → moveEdge mf s t := ih (idx + 1) rest hrest t
          cases l? with
          | none =>
            cases r? with
            | none =>
              dsimp only at ht
              exact hrestcase ht
            | some rt =>
              dsimp only at ht
              rcases List.mem_append.mp ht with h1 | h2
              · rcases List.mem_singleton.mp h1 with rfl
                exact hr
              · exact hrestcase h2
          | some lt =>
            cases r? with
            | none =>
              dsimp only at ht
              rcases List.mem_append.mp ht with h1 | h2
              · rcases List.mem_singleton.mp h1 with rfl
                exact hl
              · exact hrestcase h2
            | some rt =>
              dsimp only at ht
              rcases List.mem_append.mp ht with h1 | h2
              · rcases List.mem_append.mp h1 with h3 | h4
                · rcases List.mem_singleton.mp h3 with rfl
                  exact hl
                · rcases List.mem_singleton.mp h4 with rfl
                  exact hr
              · exact hrestcase h2

/-- Every transition of `get_all_state_transitions` is a sound edge. -/
theorem get_all_sound (mf : Nat) (s : State) (trs : List StateTransition)
    (h : get_all_state_transitions mf s = .ok trs) :
    ∀ t ∈ trs, moveEdge mf s t := by
  unfold get_all_state_transitions at h
  exact transGo_sound mf s s.movables.length 0 trs h

/-- A found-win return of the transition processing step is one of the
processed transitions and is a win. -/
theorem processTrans_inl :
    ∀ (trs : List StateTransition) (seen : List State)
      (tree : List (Int × StateTransition)) (queue : List State) (parent : Int)
      (t : StateTransition),
      processTrans trs seen tree queue parent = .ok (.inl t) →
      t ∈ trs ∧ is_win_state t.state = true := by
  intro trs
  induction trs with
  | nil =>
    intro seen tree queue parent t h
    unfold processTrans at h
    injection h with h
    exact Sum.noConfusion h
  | cons t1 rest ih =>
    intro seen tree queue parent t h
    unfold processTrans at h
    simp only [Bind.bind, Except.bind] at h
    cases hm : stateMem seen t1.state with
    | error e => rw [hm] at h; exact Except.noConfusion h
    | ok m =>
      rw [hm] at h
      dsimp only at h
      cases m with
      | true =>
        rw [if_pos rfl] at h
        rcases ih seen tree queue parent t h with ⟨h1, h2⟩
        exact ⟨List.mem_cons_of_mem t1 h1, h2⟩
      | false =>
        rw [if_neg (by decide)] at h
        by_cases hw : is_win_state t1.state = true
        · rw [if_pos hw] at h
          injection h with h
          injection h with h
          rw [← h]
          exact ⟨List.mem_cons_self t1 rest, hw⟩
        · rw [if_neg hw] at h
          rcases ih _ _ _ parent t h with ⟨h1, h2⟩
          exact ⟨List.mem_cons_of_mem t1 h1, h2⟩

/-- A continue return of the transition processing step appends a common
sublist of the processed transitions to the tree (as children of the given
parent) and, statewise, to the frontier. -/
theorem processTrans_inr :
    ∀ (trs : List StateTransition) (seen : List State)
      (tree : List (Int × StateTransition)) (queue : List State) (parent : Int)
      (seen2 : List State) (tree2 : List (Int × StateTransition)) (queue2 : List State),
      processTrans trs seen tree queue parent = .ok (.inr (seen2, tree2, queue2)) →
      ∃ new : List StateTransition, (∀ t ∈ new, t ∈ trs) ∧
        tree2 = tree ++ new.map (fun t => (parent, t)) ∧
        queue2 = queue ++ new.map (fun t => t.state) := by
  intro trs
  induction trs with
  | nil =>
    intro seen tree queue parent seen2 tree2 queue2 h
    unfold processTrans at h
    injection h with h
    injection h with h
    injection h with h1 h2
    injection h2 with h2 h3
    refine ⟨[], fun t ht => absurd ht (List.not_mem_nil t), ?_, ?_⟩
    · rw [← h2]
      simp
    · rw [← h3]
      simp
  | cons t1 rest ih =>
    intro seen tree queue parent seen2 tree2 queue2 h
    unfold processTrans at h
    simp only [Bind.bind, Except.bind] at h
    cases hm : stateMem seen t1.state with
    | error e => rw [hm] at h; exact Except.noConfusion h
    | ok m =>
      rw [hm] at h
      dsimp only at h
      cases m with
      | true =>
        rw [if_pos rfl] at h
        rcases ih seen tree queue parent seen2 tree2 queue2 h with ⟨new, hsub, h2, h3⟩
        exact ⟨new, fun t ht => List.mem_cons_of_mem t1 (hsub t ht), h2, h3⟩
      | false =>
        rw [if_neg (by decide)] at h
        by_cases hw : is_win_state t1.state = true
        · rw [if_pos hw] at h
          injection h with h
          exact Sum.noConfusion h
        · rw [if_neg hw] at h
          rcases ih _ _ _ parent seen2 tree2 queue2 h with ⟨new, hsub, h2, h3⟩
          refine ⟨t1 :: new, ?_, ?_, ?_⟩
          · intro t ht
            rcases List.mem_cons.mp ht with hm1 | hm2
            · rw [hm1]
              exact List.mem_cons_self t1 rest
            · exact List.mem_cons_of_mem t1 (hsub t hm2)
          · rw [h2, List.map_cons, List.append_assoc]
            rfl
          · rw [h3, List.map_cons, List.append_assoc]
            rfl

/-- Path reconstruction over a sound tree yields a replaying winning list:
if the accumulator replays (to a win) from the state the current parent
pointer denotes, the reconstructed list replays from the root state. -/
theorem reconstruct_replays (mf : Nat) (puzzle : State)
    (tree : List (Int × StateTransition)) (hT : TreeOk mf puzzle tree) :
    ∀ (fuel : Nat) (p : Int) (acc l : List StateTransition),
      reconstruct fuel tree p acc = .ok l →
      ((p = -1 ∧ replayWin mf puzzle acc = true) ∨
       (∃ j, ∃ hj : j < tree.length, p = (j : Int) ∧
         replayWin mf (tree.get ⟨j, hj⟩).2.state acc = true)) →
      replayWin mf puzzle l = true := by
  intro fuel
  induction fuel with
  | zero =>
    intro p acc l h _
    exact Except.noConfusion h
  | succ n ih =>
    intro p acc l h hstart
    unfold reconstruct at h
    by_cases hp : p = -1
    · rw [if_pos hp] at h
      injection h with h
      rcases hstart with ⟨_, hrep⟩ | ⟨j, hj, hpj, _⟩
      · rw [← h]
        exact hrep
      · exact absurd (hpj ▸ hp) (by omega)
    · rw [if_neg hp] at h
      simp only [Bind.bind, Except.bind] at h
      rcases hstart with ⟨hpm, _⟩ | ⟨j, hj, hpj, hrep⟩
      · exact absurd hpm hp
      · have hget2 : pyGet tree ((j : Nat) : Int) = .ok (tree.get ⟨j, hj⟩) := by
          rw [pyGet_nat_of_lt hj, List.get_eq_getElem]
        rw [hpj, hget2] at h
        dsimp only at h
        rw [← Prod.mk.eta (p := tree.get ⟨j, hj⟩)] at h
        dsimp only at h
        have hentry := hT j hj
        rcases hentry with ⟨hp2, hmv⟩ | ⟨j2, hj2, hp2, hmv⟩
        · refine ih (tree.get ⟨j, hj⟩).1 ((tree.get ⟨j, hj⟩).2 :: acc) l h (Or.inl ⟨hp2, ?_⟩)
          unfold replayWin
          unfold moveEdge at hmv
          rw [hmv]
          dsimp only
          rw [if_pos rfl]
          exact hrep
        · refine ih (tree.get ⟨j, hj⟩).1 ((tree.get ⟨j, hj⟩).2 :: acc) l h
            (Or.inr ⟨j2, hj2, hp2, ?_⟩)
          unfold replayWin
          unfold moveEdge at hmv
          rw [hmv]
          dsimp only
          rw [if_pos rfl]
          exact hrep

/-- Appending sound children of an existing tree node preserves tree
soundness. -/
theorem treeOk_extend (mf : Nat) (puzzle : State)
    (tree : List (Int × StateTransition)) (sidx : Nat) (hs : sidx < tree.length)
    (new : List StateTransition) (hT : TreeOk mf puzzle tree)
    (hnew : ∀ t ∈ new, moveEdge mf (tree.get ⟨sidx, hs⟩).2.state t) :
    TreeOk mf puzzle (tree ++ new.map (fun t => ((sidx : Int), t))) := by
  intro k hk
  rw [List.length_append, List.length_map] at hk
  by_cases hkl : k < tree.length
  · have hget : (tree ++ new.map (fun t => ((sidx : Int), t))).get
        ⟨k, by rw [List.length_append]; omega⟩ = tree.get ⟨k, hkl⟩ := by
      simp only [List.get_eq_getElem]
      exact List.getElem_append_left hkl
    rw [hget]
    rcases hT k hkl with ⟨h1, h2⟩ | ⟨j, hj, h1, h2⟩
    · exact Or.inl ⟨h1, h2⟩
    · refine Or.inr ⟨j, by rw [List.length_append]; omega, h1, ?_⟩
      have hgetj : (tree ++ new.map (fun t => ((sidx : Int), t))).get
          ⟨j, by rw [List.length_append]; omega⟩ = tree.get ⟨j, hj⟩ := by
        simp only [List.get_eq_getElem]
        exact List.getElem_append_left hj
      rw [hgetj]
      exact h2
  · have hk2 : k - tree.length < new.length := by omega
    have hget : (tree ++ new.map (fun t => ((sidx : Int), t))).get
        ⟨k, by rw [List.length_append, List.length_map]; omega⟩ =
        ((sidx : Int), new.get ⟨k - tree.length, hk2⟩) := by
      simp only [List.get_eq_getElem]
      rw [List.getElem_append_right (by omega)]
      simp only [List.getElem_map, List.length_map]
    rw [hget]
    refine Or.inr ⟨sidx, by rw [List.length_append]; omega, rfl, ?_⟩
    have hgets : (tree ++ new.map (fun t => ((sidx : Int), t))).get
        ⟨sidx, by rw [List.length_append]; omega⟩ = tree.get ⟨sidx, hs⟩ := by
      simp only [List.get_eq_getElem]
      exact List.getElem_append_left hs
    rw [hgets]
    exact hnew (new.get ⟨k - tree.length, hk2⟩) (List.get_mem new _ hk2)

/-- The breadth-first loop of `solve` only returns lists that replay from
the root state to a win, provided the tree is sound and the frontier holds
exactly the states of the not-yet-popped tree entries. -/
theorem solveLoop_replays (mf : Nat) (puzzle : State) :
    ∀ (fuel : Nat) (seen : List State) (tree : List (Int × StateTransition))
      (queue : List State) (sidx : Nat) (l : List StateTransition),
      TreeOk mf puzzle tree →
      queue = (tree.drop sidx).map (fun e => e.2.state) →
      solveLoop mf fuel seen tree queue sidx = .ok l →
      replayWin mf puzzle l = true := by
  intro fuel
  induction fuel with
  | zero =>
    intro seen tree queue sidx l _ _ h
    exact Except.noConfusion h
  | succ n ih =>
    intro seen tree queue sidx l hT hq h
    subst hq
    unfold solveLoop at h
    by_cases hs : sidx < tree.length
    · have hgs : tree.get ⟨sidx, hs⟩ = tree[sidx] := List.get_eq_getElem tree ⟨sidx, hs⟩
      rw [List.drop_eq_getElem_cons hs, List.map_cons] at h
      dsimp only at h
      simp only [Bind.bind, Except.bind] at h
      cases htrs : get_all_state_transitions mf tree[sidx].2.state with
      | error e => rw [htrs] at h; exact Except.noConfusion h
      | ok trs =>
        rw [htrs] at h
        dsimp only at h
        cases hr : processTrans trs seen tree
            ((tree.drop (sidx + 1)).map (fun e => e.2.state)) (sidx : Int) with
        | error e => rw [hr] at h; exact Except.noConfusion h
        | ok r =>
          rw [hr] at h
          dsimp only at h
          cases r with
          | inl t =>
            rcases processTrans_inl trs seen tree _ _ t hr with ⟨hmem, hwin⟩
            have hmv : moveEdge mf tree[sidx].2.state t :=
              get_all_sound mf _ trs htrs t hmem
            refine reconstruct_replays mf puzzle tree hT (tree.length + 1) (sidx : Int)
              [t] l h (Or.inr ⟨sidx, hs, rfl, ?_⟩)
            rw [hgs]
            unfold replayWin
            unfold moveEdge at hmv
            rw [hmv]
            dsimp only
            rw [if_pos rfl]
            unfold replayWin
            exact hwin
          | inr pr =>
            rcases pr with ⟨seen2, tree2, queue3⟩
            dsimp only at h
            rcases processTrans_inr trs seen tree _ _ seen2 tree2 queue3 hr with
              ⟨new, hsub, htree2, hqueue3⟩
            have hT2 : TreeOk mf puzzle tree2 := by
              rw [htree2]
              refine treeOk_extend mf puzzle tree sidx hs new hT ?_
              intro t ht
              rw [hgs]
              exact get_all_sound mf _ trs htrs t (hsub t ht)
            have hq2 : queue3 = (tree2.drop (sidx + 1)).map (fun e => e.2.state) := by
              rw [hqueue3, htree2, List.drop_append_of_le_length (by omega),
                List.map_append, List.map_map]
              rfl
            exact ih seen2 tree2 queue3 (sidx + 1) l hT2 hq2 h
    · have hnil : tree.drop sidx = [] := List.drop_eq_nil_of_le (by omega)
      rw [hnil, List.map_nil] at h
      exact Except.noConfusion h

/-- Extract the entry list from a successful solver run; paired facts always
pin the successful case, so the fallback is never reached. -/
def excEntries (e : Exc (List SolveEntry)) : List SolveEntry := e.toOption.getD []

/-- C1, amended. Whenever `solve` returns successfully, either the input was
already a win and the result is the one-element raw-state list, or the
result is a list of transition records whose moves replay in order from the
input state, each move succeeding and reproducing its recorded state, with
the final state a win. Minimality of the length is not part of the amended
claim; the counterexample shows it fails. -/
theorem solve_result_replays_to_win (fuel mf : Nat) (puzzle : State)
    (entries : List SolveEntry) (h : solve fuel mf puzzle = .ok entries) :
    (is_win_state puzzle = true ∧ entries = [SolveEntry.st puzzle]) ∨
    (∃ trs : List StateTransition, entries = trs.map SolveEntry.tr ∧
      replayWin mf puzzle trs = true) := by
  unfold solve at h
  by_cases hw : is_win_state puzzle = true
  · rw [if_pos hw] at h
    injection h with h
    exact Or.inl ⟨hw, h.symm⟩
  · rw [if_neg hw] at h
    simp only [Bind.bind, Except.bind] at h
    cases htrs : get_all_state_transitions mf puzzle with
    | error e => rw [htrs] at h; exact Except.noConfusion h
    | ok trs =>
      rw [htrs] at h
      dsimp only at h
      cases hr : processTrans trs [puzzle] [] [] (-1) with
      | error e => rw [hr] at h; exact Except.noConfusion h
      | ok r =>
        rw [hr] at h
        dsimp only at h
        cases r with
        | inl t =>
          injection h with h
          rcases processTrans_inl trs [puzzle] [] [] (-1) t hr with ⟨hmem, hwin⟩
          have hmv := get_all_sound mf puzzle trs htrs t hmem
          refine Or.inr ⟨[t], h.symm, ?_⟩
          unfold replayWin
          unfold moveEdge at hmv
          rw [hmv]
          dsimp only
          rw [if_pos rfl]
          unfold replayWin
          exact hwin
        | inr pr =>
          rcases pr with ⟨seen, tree, queue⟩
          dsimp only at h
          cases hl : solveLoop mf fuel seen tree queue 0 with
          | error e => rw [hl] at h; exact Except.noConfusion h
          | ok l =>
            rw [hl] at h
            dsimp only at h
            injection h with h
            rcases processTrans_inr trs [puzzle] [] [] (-1) seen tree queue hr with
              ⟨new, hsub, htree, hqueue⟩
            rw [List.nil_append] at htree hqueue
            subst htree
            subst hqueue
            have hT : TreeOk mf puzzle (new.map (fun t => ((-1 : Int), t))) := by
              intro k hk
              left
              have hk2 : k < new.length := by
                rw [List.length_map] at hk
                exact hk
              simp only [List.get_eq_getElem, List.getElem_map]
              exact ⟨by trivial, get_all_sound mf puzzle trs htrs _
                (hsub _ (List.get_mem new k hk2))⟩
            have hq : new.map (fun t => t.state) =
                (((new.map (fun t => ((-1 : Int), t))).drop 0).map (fun e => e.2.state)) := by
              rw [List.drop_zero, List.map_map]
              rfl
            exact Or.inr ⟨l, h.symm,
              solveLoop_replays mf puzzle fuel _ _ _ 0 l hT hq hl⟩

/-- C1 witness: on the floored two-red-jelly scenario the solver returns a
single transition, and the amended claim instantiates to its replay. -/
theorem solve_result_replays_to_win_witness :
    solve 8 8 fixScenarioFloored = .ok (excEntries (solve 8 8 fixScenarioFloored)) ∧
    ((is_win_state fixScenarioFloored = true ∧
        excEntries (solve 8 8 fixScenarioFloored) = [SolveEntry.st fixScenarioFloored]) ∨
      (∃ trs : List StateTransition,
        excEntries (solve 8 8 fixScenarioFloored) = trs.map SolveEntry.tr ∧
        replayWin 8 fixScenarioFloored trs = true)) :=
  ⟨by decide, solve_result_replays_to_win 8 8 fixScenarioFloored _ (by decide)⟩

/-- Minimality counterexample board, realizable as a parsed puzzle file: a
free red jelly at (1,0) between a block at (2,0) and a block at (0,0), the
jelly and the first block each attached (one-way, as the parser builds
attachment lines) to the second block, an anchored red jelly at (5,0), and
a full tile floor on row 1 of the six-by-two grid. Pushing right drags the
far block twice (the double-push defect), hiding the jelly under a block;
two distinct four-move prefixes collide in the seen-set because the hidden
jelly does not show on the hashed board, and the unique four-move win is
pruned. -/
def fixSolveNonMin : State := excToState (mkState
  [mkJelly [⟨1, 0⟩] .red false, mkBlock [⟨2, 0⟩], mkBlock [⟨0, 0⟩],
    mkJelly [⟨5, 0⟩] .red true]
  [⟨0, 1⟩, ⟨1, 1⟩, ⟨2, 1⟩, ⟨3, 1⟩, ⟨4, 1⟩, ⟨5, 1⟩] 6 2
  [(0, [2]), (1, [2]), (2, [])])

set_option maxRecDepth 100000 in
set_option maxHeartbeats 4000000 in
/-- C1, counterexample. On the board above the solver returns a sequence of
five transitions, yet the four lateral moves listed replay from the same
board through successful moves to a state that satisfies the win test, so
the returned sequence's length is not minimal. -/
theorem solve_returns_nonminimal_path :
    mkState
      [mkJelly [⟨1, 0⟩] .red false, mkBlock [⟨2, 0⟩], mkBlock [⟨0, 0⟩],
        mkJelly [⟨5, 0⟩] .red true]
      [⟨0, 1⟩, ⟨1, 1⟩, ⟨2, 1⟩, ⟨3, 1⟩, ⟨4, 1⟩, ⟨5, 1⟩] 6 2
      [(0, [2]), (1, [2]), (2, [])] = .ok fixSolveNonMin ∧
    (solve 24 24 fixSolveNonMin).map (List.map solveEntryMove) =
      .ok [some (0, .right), some (1, .left), some (1, .left),
        some (0, .right), some (0, .right)] ∧
    (playMoves 24 fixSolveNonMin
        [(0, .right), (1, .left), (0, .right), (0, .right)]).map
      (Option.map is_win_state) = .ok (some true) := by
  refine ⟨by decide, by decide, by decide⟩
